import Mathlib

/-!
Shallow embedding of the diode application core: the build orchestrator
(`AppBuilder::build` with its round-based `topological_sort` over a dependency
graph that may grow mid-build, from `src/diode/src/app.rs`), the service
adapter (`src/diode/src/service.rs`), the extractors (`src/diode/src/inject.rs`)
and the daemon supervisor (`src/diode-base/src/daemon.rs`).

Rust `TypeId`s are modelled as natural numbers.  Hash maps keyed by `TypeId`
are modelled as association lists with `HashMap::insert` replace semantics;
`HashSet` iteration order is modelled by the order of the corresponding list,
so theorems quantified over dependency lists cover every iteration order the
Rust sets may present.  Build routines (arbitrary Rust async closures over
`&mut AppBuilder`) are modelled by the fragment the orchestrator interprets:
a finite script of registrations ending in success or a reported error;
`panic!` paths (duplicate registration, failed `unwrap`) are explicit
`panicked` outcomes.  The two loops that Rust bounds by the finiteness of the
type universe (`topological_sort` recursion and the round loop of `build`)
take an explicit fuel argument; `build` supplies a fuel computed from the
total registration potential of the builder, which suffices for every run.
-/

namespace Diode

/-- Errors returned by `AppBuilder::build` (enum `AppError` in app.rs); the
payload of `PluginError` is an error code standing for the boxed `StdError`. -/
inductive AppError where
  | circularDependency
  | missingDependency
  | pluginError (e : Nat)
deriving DecidableEq, Repr

/-- Three-state visitation marker of `topological_sort` (`DependencyStatus`
in app.rs): an identity is in-progress (`pending`) or resolved (`ready`);
unvisited identities are simply absent from the `used` map. -/
inductive DependencyStatus where
  | pending
  | ready
deriving DecidableEq, Repr

/-- Lookup in an association list, modelling `HashMap::get`. -/
def lookupKey {α : Type} : List (Nat × α) → Nat → Option α
  | [], _ => none
  | (k, v) :: rest, key => if k = key then some v else lookupKey rest key

/-- Insert-or-replace in an association list, modelling `HashMap::insert`. -/
def insertReplace {α : Type} : List (Nat × α) → Nat → α → List (Nat × α)
  | [], key, val => [(key, val)]
  | (k, v) :: rest, key, val =>
    if k = key then (key, val) :: rest else (k, v) :: insertReplace rest key val

/-- Key removal from an association list, modelling `HashMap::remove`. -/
def removeKey {α : Type} : List (Nat × α) → Nat → List (Nat × α)
  | [], _ => []
  | (k, v) :: rest, key =>
    if k = key then removeKey rest key else (k, v) :: removeKey rest key

/-- A build routine, modelling the fragment of Rust plugin `build` bodies the
orchestrator interprets: a sequence of `add_component` / `add_plugin` calls on
the builder, ending in `Ok(())` (`done`) or in a reported error (`fail e`). -/
inductive Routine where
  | done
  | addComponent (kind val : Nat) (rest : Routine)
  | addPlugin (id : Nat) (deps : List Nat) (sub : Routine) (rest : Routine)
  | fail (e : Nat)
deriving DecidableEq, Repr

/-- A registered plugin: its dependency identity set (`Dependencies.plugins`,
a `HashSet<TypeId>` modelled as a list covering any iteration order) and its
build routine. -/
structure PluginDef where
  deps : List Nat
  routine : Routine
deriving DecidableEq, Repr

/-- The mutable builder (`AppBuilder` in app.rs): components in progress, the
plugin registry, and the pending-plugin queue. -/
structure AppBuilder where
  components : List (Nat × Nat)
  plugins : List (Nat × PluginDef)
  pending_plugins : List Nat
deriving DecidableEq, Repr

/-- The immutable application (`App` in app.rs): the finished components. -/
structure App where
  components : List (Nat × Nat)
deriving DecidableEq, Repr

/-- `App::builder()`: the empty builder. -/
def App.builder : AppBuilder := ⟨[], [], []⟩

/-- `AppBuilder::add_component`: fails fast (Rust `panic!`, modelled as `none`)
if the kind is already present, otherwise stores the value. -/
def AppBuilder.add_component (b : AppBuilder) (kind val : Nat) : Option AppBuilder :=
  if (lookupKey b.components kind).isSome then none
  else some { b with components := b.components ++ [(kind, val)] }

/-- `AppBuilder::add_plugin`: fails fast (Rust `panic!`, modelled as `none`) if
the identity is already registered, otherwise records the plugin and appends
its identity to the pending queue. -/
def AppBuilder.add_plugin (b : AppBuilder) (id : Nat) (p : PluginDef) : Option AppBuilder :=
  if (lookupKey b.plugins id).isSome then none
  else some { b with
    plugins := b.plugins ++ [(id, p)]
    pending_plugins := b.pending_plugins ++ [id] }

/-- `AppBuilder::get_component` (also `get_component_ref`): presence or
absence, no default fallback. -/
def AppBuilder.get_component (b : AppBuilder) (kind : Nat) : Option Nat :=
  lookupKey b.components kind

/-- `AppBuilder::has_component`. -/
def AppBuilder.has_component (b : AppBuilder) (kind : Nat) : Bool :=
  (lookupKey b.components kind).isSome

/-- `AppBuilder::has_plugin`. -/
def AppBuilder.has_plugin (b : AppBuilder) (id : Nat) : Bool :=
  (lookupKey b.plugins id).isSome

/-- `App::get_component` (also `get_component_ref`). -/
def App.get_component (a : App) (kind : Nat) : Option Nat :=
  lookupKey a.components kind

/-- `App::has_component`. -/
def App.has_component (a : App) (kind : Nat) : Bool :=
  (lookupKey a.components kind).isSome

/-- The `ServiceProvider<T>` plugin body from service.rs:
`app.add_component(T::build(app).await?)`.  A service whose own `build`
succeeds with handle `val` stores it under the service's kind; a failing
`build` reports the error. -/
def serviceRoutine (kind : Nat) (result : Except Nat Nat) : Routine :=
  match result with
  | .ok val => .addComponent kind val .done
  | .error e => .fail e

/-- `AddServiceExt::add_service`: registers the `ServiceProvider` wrapper
plugin for the service, subject to the same duplicate fail-fast rule as
`add_plugin`. -/
def AppBuilder.add_service (b : AppBuilder) (id kind : Nat) (result : Except Nat Nat)
    (deps : List Nat) : Option AppBuilder :=
  b.add_plugin id ⟨deps, serviceRoutine kind result⟩

/-- Result of running one build routine on the builder: success with the
mutated builder, a reported error (`Err` from the routine), or a `panic!`
(duplicate registration inside the routine). -/
inductive RoutineResult where
  | ok (b : AppBuilder)
  | err (e : Nat)
  | panicked
deriving DecidableEq, Repr

/-- Interpreter for build routines over the builder. -/
def Routine.run : Routine → AppBuilder → RoutineResult
  | .done, b => .ok b
  | .addComponent kind val rest, b =>
    match b.add_component kind val with
    | some b' => Routine.run rest b'
    | none => .panicked
  | .addPlugin id deps sub rest, b =>
    match b.add_plugin id ⟨deps, sub⟩ with
    | some b' => Routine.run rest b'
    | none => .panicked
  | .fail e, _ => .err e

/-- Result of `topological_sort` (app.rs lines 495-520): `ok resolved order
used` models `Ok(resolved)` together with the final contents of the two
`&mut` arguments, `err` models `Err(_)?` propagation, and `outOfFuel` marks
exhaustion of the explicit recursion bound (unreachable for the bound `build`
supplies, see `topoSort_fuel_sufficient`). -/
inductive TopoResult where
  | ok (resolved : Bool) (order : List Nat) (used : List (Nat × DependencyStatus))
  | err (e : AppError)
  | outOfFuel
deriving DecidableEq, Repr

/-- The `for dep_type_id in dependencies` loop of `topological_sort`,
parameterised by the recursive call `rec` (the sort at the remaining
recursion depth): an in-progress dependency signals a cycle
(`CircularDependency`), a ready one is skipped, an unvisited one is resolved
recursively; if a dependency is not resolvable the node is unmarked and
deferred (`Ok(false)`); once all dependencies resolve the node is marked
ready and appended to the order. -/
def topoVisitF
    (rec : Nat → List (Nat × List Nat) → List Nat → List (Nat × DependencyStatus) → TopoResult)
    (id : Nat) : List Nat → List (Nat × List Nat) → List Nat →
      List (Nat × DependencyStatus) → TopoResult
  | [], _, order, used => .ok true (order ++ [id]) (insertReplace used id .ready)
  | d :: rest, graph, order, used =>
    match lookupKey used d with
    | some .pending => .err .circularDependency
    | some .ready => topoVisitF rec id rest graph order used
    | none =>
      match rec d graph order used with
      | .ok true order' used' => topoVisitF rec id rest graph order' used'
      | .ok false order' used' => .ok false order' (removeKey used' id)
      | .err e => .err e
      | .outOfFuel => .outOfFuel

/-- `topological_sort(type_id, graph, order, used)` from app.rs: looks up the
node's dependency list (absent ⇒ not resolvable this round, `Ok(false)`),
marks the node in-progress, then walks the dependencies; the explicit fuel
bounds the recursion depth (Rust relies on the finiteness of the visited
identities, see `topoSort` fuel lemmas below). -/
def topoSort : Nat → Nat → List (Nat × List Nat) → List Nat →
    List (Nat × DependencyStatus) → TopoResult
  | 0, _, _, _, _ => .outOfFuel
  | fuel + 1, id, graph, order, used =>
    match lookupKey graph id with
    | none => .ok false order used
    | some deps => topoVisitF (topoSort fuel) id deps graph order (insertReplace used id .pending)

/-- The dependency loop at a given fuel level. -/
def topoVisit (fuel : Nat) (id : Nat) (deps : List Nat) (graph : List (Nat × List Nat))
    (order : List Nat) (used : List (Nat × DependencyStatus)) : TopoResult :=
  topoVisitF (topoSort fuel) id deps graph order used

/-- Result of the per-round topological phase of `build` (the second `for
type_id in pending_plugins` loop in app.rs lines 457-468): the accumulated
round order, the visitation map, and the identities deferred back to the
pending queue. -/
inductive RoundResult where
  | ok (order : List Nat) (used : List (Nat × DependencyStatus)) (deferred : List Nat)
  | err (e : AppError)
  | outOfFuel
deriving DecidableEq, Repr

/-- The topological phase of one round of `build`: identities already visited
are skipped (they were resolved as someone's dependency); otherwise
`topological_sort` either resolves the identity, defers it to the next round
(`self.pending_plugins.push`), or aborts the build with an error. -/
def topoRound : List Nat → List (Nat × List Nat) → List Nat →
    List (Nat × DependencyStatus) → List Nat → RoundResult
  | [], _, order, used, deferred => .ok order used deferred
  | id :: rest, graph, order, used, deferred =>
    if (lookupKey used id).isSome then topoRound rest graph order used deferred
    else
      match topoSort (graph.length + 1) id graph order used with
      | .ok true order' used' => topoRound rest graph order' used' deferred
      | .ok false order' used' => topoRound rest graph order' used' (deferred ++ [id])
      | .err e => .err e
      | .outOfFuel => .outOfFuel

/-- The first `for type_id in pending_plugins` loop of `build` (app.rs lines
453-456): queries every pending identity's dependency set and accumulates
the edges into the persistent graph; the `self.plugins.get(type_id).unwrap()`
panic on an unregistered pending identity is modelled as `none`. -/
def insertGraph : List Nat → List (Nat × PluginDef) → List (Nat × List Nat) →
    Option (List (Nat × List Nat))
  | [], _, graph => some graph
  | id :: rest, plugins, graph =>
    match lookupKey plugins id with
    | none => none
    | some p => insertGraph rest plugins (insertReplace graph id p.deps)

/-- Result of the execution phase of one round: the mutated builder and the
log of identities whose routines ran (instrumentation recording the executed
build order), a routine error, or a panic. -/
inductive ExecResult where
  | ok (b : AppBuilder) (log : List Nat)
  | err (e : Nat) (log : List Nat)
  | panicked
deriving DecidableEq, Repr

/-- The execution phase of one round of `build` (app.rs lines 472-479):
invokes each resolved identity's build routine strictly sequentially with
access to the builder; a routine error stops the build immediately. -/
def runOrder : List Nat → AppBuilder → List Nat → ExecResult
  | [], b, log => .ok b log
  | id :: rest, b, log =>
    match lookupKey b.plugins id with
    | none => .panicked
    | some p =>
      match p.routine.run b with
      | .ok b' => runOrder rest b' (log ++ [id])
      | .err e => .err e (log ++ [id])
      | .panicked => .panicked

/-- Result of `AppBuilder::build`: `Ok(App)` together with the drained
builder, or an `AppError`.  The `log` (executed build order) and `graph`
(persistent dependency graph) fields are instrumentation; `panicked` models
the Rust panic paths and `outOfFuel` exhaustion of the explicit round bound
(unreachable for the bound `build` supplies). -/
inductive BuildResult where
  | ok (app : App) (b : AppBuilder) (log : List Nat) (graph : List (Nat × List Nat))
  | err (e : AppError) (log : List Nat) (graph : List (Nat × List Nat))
  | panicked
  | outOfFuel
deriving DecidableEq, Repr

/-- The round loop of `AppBuilder::build` (app.rs lines 450-487): while the
pending queue is nonempty, snapshot it, accumulate graph edges, run the
topological phase, fail with `MissingDependency` if the round resolved
nothing, execute the round's order, and continue; on exit drop the plugins
and move the components into the `App`. -/
def buildLoop : Nat → AppBuilder → List (Nat × List Nat) →
    List (Nat × DependencyStatus) → List Nat → BuildResult
  | 0, _, _, _, _ => .outOfFuel
  | fuel + 1, b, graph, used, log =>
    if b.pending_plugins = [] then
      .ok ⟨b.components⟩ ⟨[], [], []⟩ log graph
    else
      match insertGraph b.pending_plugins b.plugins graph with
      | none => .panicked
      | some graph' =>
        match topoRound b.pending_plugins graph' [] used [] with
        | .err e => .err e log graph'
        | .outOfFuel => .outOfFuel
        | .ok order used' deferred =>
          if order = [] then .err .missingDependency log graph'
          else
            match runOrder order { b with pending_plugins := deferred } log with
            | .panicked => .panicked
            | .err e log' => .err (.pluginError e) log' graph'
            | .ok b' log' => buildLoop fuel b' graph' used' log'

/-- Number of plugin registrations a routine can perform, transitively
through the routines of the plugins it registers. -/
def Routine.potential : Routine → Nat
  | .done => 0
  | .fail _ => 0
  | .addComponent _ _ rest => rest.potential
  | .addPlugin _ _ sub rest => 1 + sub.potential + rest.potential

/-- Round bound supplied to `buildLoop`: every successful round runs at least
one not-yet-run plugin, and the total number of plugins ever registered is
bounded by the registration potential of the builder. -/
def buildFuel (b : AppBuilder) : Nat :=
  (b.plugins.map fun p => 1 + p.2.routine.potential).sum + 1

/-- `AppBuilder::build`: drives the round loop to a fixed point from the
empty graph and visitation map. -/
def AppBuilder.build (b : AppBuilder) : BuildResult :=
  buildLoop (buildFuel b) b [] [] []

/-- The daemon registry component (`DaemonRegistry` in daemon.rs): daemons
keyed by their `TypeId`; the value is a tag standing for the daemon object. -/
structure DaemonRegistry where
  daemons : List (Nat × Nat)
deriving DecidableEq, Repr

/-- `DaemonRegistry::add_daemon`: a plain `HashMap::insert` — a daemon with
an already-registered identity silently replaces the existing one. -/
def DaemonRegistry.add_daemon (r : DaemonRegistry) (id tag : Nat) : DaemonRegistry :=
  ⟨insertReplace r.daemons id tag⟩

/-- `DaemonRegistry::has_daemon`. -/
def DaemonRegistry.has_daemon (r : DaemonRegistry) (id : Nat) : Bool :=
  (lookupKey r.daemons id).isSome

/-- `AddDaemonExt::add_daemon` on the builder: creates the registry component
on first use, then delegates to `DaemonRegistry::add_daemon` (no duplicate
check on either path). -/
def AppBuilder.add_daemon (reg : Option DaemonRegistry) (id tag : Nat) : DaemonRegistry :=
  (reg.getD ⟨[]⟩).add_daemon id tag

instance {ε α : Type} [DecidableEq ε] [DecidableEq α] : DecidableEq (Except ε α) := fun a b =>
  match a, b with
  | .ok x, .ok y =>
    if h : x = y then isTrue (by rw [h]) else isFalse (by intro hc; cases hc; exact h rfl)
  | .ok _, .error _ => isFalse (by intro hc; cases hc)
  | .error _, .ok _ => isFalse (by intro hc; cases hc)
  | .error x, .error y =>
    if h : x = y then isTrue (by rw [h]) else isFalse (by intro hc; cases hc; exact h rfl)

/-- Observable outcome of one run of the daemon supervisor: the returned
result, the number of tasks awaited to completion before the call returned,
and the number of tasks awaited before the root cancellation handle was
cancelled. -/
structure SupervisorOutcome where
  result : Except Nat Unit
  awaited : Nat
  cancelledAfter : Nat
deriving DecidableEq, Repr

/-- The `while let Some(result) = futures.join_next().await` loop of
`run_daemons` (daemon.rs lines 57-59): awaits remaining tasks in completion
order, propagating the first error immediately (the `JoinSet` is dropped at
that point, aborting the still-running tasks).  Returns the result and the
number of tasks awaited. -/
def joinAll : List (Except Nat Unit) → Except Nat Unit × Nat
  | [] => (Except.ok (), 0)
  | r :: rest =>
    match r with
    | .error e => (.error e, 1)
    | .ok _ =>
      let p := joinAll rest
      (p.1, p.2 + 1)

/-- `DaemonRegistry::run_daemons` (daemon.rs lines 35-62) over the task
completion sequence `cs` (the daemons' results in the order their tasks
finish; concurrency is abstracted by quantifying over this order): await the
first task, cancel the root handle, and if the first task succeeded keep
awaiting the rest, propagating the first observed failure immediately. -/
def DaemonRegistry.run_daemons (_ : DaemonRegistry) (cs : List (Except Nat Unit)) :
    SupervisorOutcome :=
  match cs with
  | [] => ⟨.ok (), 0, 0⟩
  | first :: rest =>
    match first with
    | .error e => ⟨.error e, 1, 1⟩
    | .ok _ =>
      let p := joinAll rest
      ⟨p.1, p.2 + 1, 1⟩

/-- `<Arc<App> as RunDaemonsExt>::run_daemons` (daemon.rs lines 107-114): if
no daemon registry component was ever created, return success immediately;
otherwise delegate to the registry. -/
def App.run_daemons (registry : Option DaemonRegistry) (cs : List (Except Nat Unit)) :
    SupervisorOutcome :=
  match registry with
  | none => ⟨.ok (), 0, 0⟩
  | some r => r.run_daemons cs

/-- Outcome of an extractor call on the builder: the extracted value, a
returned `AppError`, or a `panic!` (from `Option::unwrap` on an absent
component). -/
inductive ExtractOutcome where
  | ok (v : Nat)
  | err (e : AppError)
  | panicked
deriving DecidableEq, Repr

/-- The blanket `impl Extract/ExtractRef for S: Service` (inject.rs lines
141-167): `Ok(app.get_component::<T>().unwrap())` — the stored handle when
present, a panic when absent; an `Err` is never produced. -/
def serviceExtract (b : AppBuilder) (kind : Nat) : ExtractOutcome :=
  match b.get_component kind with
  | some v => .ok v
  | none => .panicked

/-- The `Component` extractor (inject.rs lines 198-215):
`app.get_component::<T>().ok_or(AppError::MissingDependency)`. -/
def componentExtract (b : AppBuilder) (kind : Nat) : ExtractOutcome :=
  match b.get_component kind with
  | some v => .ok v
  | none => .err .missingDependency

/-- Dependency edge of a graph: `a` depends on `b`. -/
def edgeOf (graph : List (Nat × List Nat)) (a b : Nat) : Prop :=
  ∃ ds, lookupKey graph a = some ds ∧ b ∈ ds

/-- The graph has a dependency cycle. -/
def cyclicGraph (graph : List (Nat × List Nat)) : Prop :=
  ∃ z, Relation.TransGen (edgeOf graph) z z

/-- Every dependency referenced by a graph node is itself a graph node. -/
def closedGraph (graph : List (Nat × List Nat)) : Prop :=
  ∀ k ds, lookupKey graph k = some ds → ∀ d ∈ ds, (lookupKey graph d).isSome

/-- The identity transitively reaches one absent from the graph (such an
identity is not resolvable by `topological_sort` this round). -/
inductive ReachesAbsent (graph : List (Nat × List Nat)) : Nat → Prop where
  | absent (id : Nat) : lookupKey graph id = none → ReachesAbsent graph id
  | step (id d : Nat) (ds : List Nat) : lookupKey graph id = some ds → d ∈ ds →
      ReachesAbsent graph d → ReachesAbsent graph id

/-- The list `order`, read left to right starting from already-resolved
identities `seen`, only ever schedules an identity after all of its graph
dependencies. -/
def orderedFrom (graph : List (Nat × List Nat)) : List Nat → List Nat → Prop
  | _, [] => True
  | seen, id :: rest =>
    (∀ d ∈ (lookupKey graph id).getD [], d ∈ seen) ∧ orderedFrom graph (seen ++ [id]) rest

/-- An identity is marked ready exactly when it is in the executed order. -/
def ReadyInv (order : List Nat) (used : List (Nat × DependencyStatus)) : Prop :=
  ∀ k, lookupKey used k = some .ready ↔ k ∈ order

/-- Every visited identity is a graph node. -/
def UsedSub (graph : List (Nat × List Nat)) (used : List (Nat × DependencyStatus)) : Prop :=
  ∀ k, (lookupKey used k).isSome → (lookupKey graph k).isSome

/-- Every ready identity has all its dependencies ready. -/
def ReadyClosed (graph : List (Nat × List Nat)) (used : List (Nat × DependencyStatus)) : Prop :=
  ∀ k, lookupKey used k = some .ready →
    ∃ ds, lookupKey graph k = some ds ∧ ∀ d ∈ ds, lookupKey used d = some .ready

/-- No ready identity reaches an absent one. -/
def ReadyAbsFree (graph : List (Nat × List Nat)) (used : List (Nat × DependencyStatus)) : Prop :=
  ∀ k, lookupKey used k = some .ready → ¬ReachesAbsent graph k

/-- Invariant bundle tying the visitation map to the executed order. -/
structure UsedState (graph : List (Nat × List Nat)) (order : List Nat)
    (used : List (Nat × DependencyStatus)) : Prop where
  inv : ReadyInv order used
  sub : UsedSub graph used
  closed : ReadyClosed graph used
  ordered : orderedFrom graph [] order
  nodup : order.Nodup

/-- Number of graph nodes not currently marked in-progress; a strict upper
bound on the remaining recursion depth of `topological_sort`. -/
def countNonPending (graph : List (Nat × List Nat))
    (used : List (Nat × DependencyStatus)) : Nat :=
  ((graph.map Prod.fst).filter
    (fun k => decide (lookupKey used k ≠ some DependencyStatus.pending))).length

/-- Induction statement for `topoSort`: from a well-formed visitation state
(`pre` is the order executed in earlier rounds, to which this round's order
is appended) with the node unvisited and enough fuel, the call cannot
exhaust fuel, an error is a `CircularDependency` witnessed by an actual
graph cycle, a resolution extends the order soundly and marks the node
ready, and a deferral leaves the state intact and certifies that the node
reaches an absent identity. -/
def TopoSortSpec (fuel id : Nat) (pre : List Nat) (graph : List (Nat × List Nat))
    (order : List Nat) (used : List (Nat × DependencyStatus)) : Prop :=
  (graph.map Prod.fst).Nodup →
  UsedState graph (pre ++ order) used →
  lookupKey used id = none →
  countNonPending graph used < fuel →
  (∀ k, lookupKey used k = some .pending → Relation.TransGen (edgeOf graph) k id) →
  match topoSort fuel id graph order used with
  | .outOfFuel => False
  | .err e => e = .circularDependency ∧ cyclicGraph graph
  | .ok true order' used' =>
      UsedState graph (pre ++ order') used' ∧ (∃ delta, order' = order ++ delta) ∧
      (∀ k, lookupKey used' k = some .pending ↔ lookupKey used k = some .pending) ∧
      (∀ k, lookupKey used k = some .ready → lookupKey used' k = some .ready) ∧
      lookupKey used' id = some .ready
  | .ok false order' used' =>
      UsedState graph (pre ++ order') used' ∧ (∃ delta, order' = order ++ delta) ∧
      (∀ k, lookupKey used' k = some .pending ↔ lookupKey used k = some .pending) ∧
      (∀ k, lookupKey used k = some .ready → lookupKey used' k = some .ready) ∧
      lookupKey used' id = none ∧ ReachesAbsent graph id

/-- Induction statement for the dependency loop `topoVisit`, with the node
marked in-progress and the already-processed dependencies all ready. -/
def TopoVisitSpec (fuel id : Nat) (deps : List Nat) (pre : List Nat)
    (graph : List (Nat × List Nat)) (order : List Nat)
    (used : List (Nat × DependencyStatus)) : Prop :=
  (graph.map Prod.fst).Nodup →
  UsedState graph (pre ++ order) used →
  lookupKey used id = some .pending →
  countNonPending graph used < fuel →
  (∀ k, lookupKey used k = some .pending → Relation.ReflTransGen (edgeOf graph) k id) →
  (∃ consumed, lookupKey graph id = some (consumed ++ deps) ∧
    ∀ d ∈ consumed, lookupKey used d = some .ready) →
  match topoVisit fuel id deps graph order used with
  | .outOfFuel => False
  | .err e => e = .circularDependency ∧ cyclicGraph graph
  | .ok true order' used' =>
      UsedState graph (pre ++ order') used' ∧ (∃ delta, order' = order ++ delta) ∧
      (∀ k, lookupKey used' k = some .pending ↔
        (lookupKey used k = some .pending ∧ k ≠ id)) ∧
      (∀ k, lookupKey used k = some .ready → lookupKey used' k = some .ready) ∧
      lookupKey used' id = some .ready
  | .ok false order' used' =>
      UsedState graph (pre ++ order') used' ∧ (∃ delta, order' = order ++ delta) ∧
      (∀ k, lookupKey used' k = some .pending ↔
        (lookupKey used k = some .pending ∧ k ≠ id)) ∧
      (∀ k, lookupKey used k = some .ready → lookupKey used' k = some .ready) ∧
      lookupKey used' id = none ∧ ReachesAbsent graph id

/-- Registration potential of a plugin map restricted to identities not yet
run: an upper bound on the number of rounds the build loop still needs. -/
def buildPotential (plugins : List (Nat × PluginDef))
    (used : List (Nat × DependencyStatus)) : Nat :=
  ((plugins.filter (fun p => decide (lookupKey used p.1 ≠ some DependencyStatus.ready))).map
    (fun p => 1 + p.2.routine.potential)).sum

/-- Registration potential of the plugin-map entries whose identity satisfies
`P` (generalisation of `buildPotential` used for the round accounting). -/
def potSum (plugins : List (Nat × PluginDef)) (P : Nat → Bool) : Nat :=
  ((plugins.filter (fun q => P q.1)).map (fun q => 1 + q.2.routine.potential)).sum

/-- Invariant carried by the round loop of `build` between rounds, tying the
builder, the persistent graph, the visitation map and the executed log. -/
structure BuildInv (b : AppBuilder) (graph : List (Nat × List Nat))
    (used : List (Nat × DependencyStatus)) (log : List Nat) : Prop where
  gNodup : (graph.map Prod.fst).Nodup
  pNodup : (b.plugins.map Prod.fst).Nodup
  graphPlugins : ∀ k ds, lookupKey graph k = some ds →
    ∃ p, lookupKey b.plugins k = some p ∧ p.deps = ds
  pendingReg : ∀ id ∈ b.pending_plugins, (lookupKey b.plugins id).isSome
  state : UsedState graph log used
  noPend : ∀ k, lookupKey used k ≠ some DependencyStatus.pending
  pendingFresh : ∀ id ∈ b.pending_plugins, lookupKey used id = none
  coverage : ∀ k, (lookupKey graph k).isSome → k ∈ log ∨ k ∈ b.pending_plugins

/-- A builder as produced by a registration sequence on `App::builder()`:
the pending queue lists exactly the registered plugin identities in
registration order, and registered identities and component kinds are
duplicate-free (`add_plugin` / `add_component` fail fast on duplicates). -/
def wfStart (b : AppBuilder) : Prop :=
  b.pending_plugins = b.plugins.map Prod.fst ∧
  (b.plugins.map Prod.fst).Nodup ∧
  (b.components.map Prod.fst).Nodup

/-- All registered build routines are trivial (register nothing, never
fail): the purely static registration setting. -/
def staticBuilder (b : AppBuilder) : Prop :=
  ∀ p ∈ b.plugins, p.2.routine = Routine.done

/-- Every declared dependency of a registered plugin is itself registered. -/
def closedBuilder (b : AppBuilder) : Prop :=
  ∀ p ∈ b.plugins, ∀ d ∈ p.2.deps, (lookupKey b.plugins d).isSome

/-- Dependency edge between registered plugins. -/
def edgeOfBuilder (b : AppBuilder) (a d : Nat) : Prop :=
  ∃ p, lookupKey b.plugins a = some p ∧ d ∈ p.deps

theorem lookupKey_insertReplace_self {α : Type} (l : List (Nat × α)) (k : Nat) (v : α) :
    lookupKey (insertReplace l k v) k = some v := by
  induction l with
  | nil => simp [insertReplace, lookupKey]
  | cons h t ih =>
    obtain ⟨a, b⟩ := h
    by_cases hk : a = k
    · simp [insertReplace, hk, lookupKey]
    · simp [insertReplace, hk, lookupKey, ih]

theorem lookupKey_insertReplace_of_ne {α : Type} (l : List (Nat × α)) {k k' : Nat} (v : α)
    (hne : k' ≠ k) : lookupKey (insertReplace l k v) k' = lookupKey l k' := by
  induction l with
  | nil => simp [insertReplace, lookupKey, Ne.symm hne]
  | cons h t ih =>
    obtain ⟨a, b⟩ := h
    by_cases hk : a = k
    · simp [insertReplace, hk, lookupKey, Ne.symm hne]
    · simp [insertReplace, hk, lookupKey, ih]

theorem lookupKey_removeKey_self {α : Type} (l : List (Nat × α)) (k : Nat) :
    lookupKey (removeKey l k) k = none := by
  induction l with
  | nil => simp [removeKey, lookupKey]
  | cons h t ih =>
    obtain ⟨a, b⟩ := h
    by_cases hk : a = k
    · simp [removeKey, hk, ih]
    · simp [removeKey, hk, lookupKey, ih]

theorem lookupKey_removeKey_of_ne {α : Type} (l : List (Nat × α)) {k k' : Nat}
    (hne : k' ≠ k) : lookupKey (removeKey l k) k' = lookupKey l k' := by
  induction l with
  | nil => simp [removeKey]
  | cons h t ih =>
    obtain ⟨a, b⟩ := h
    by_cases hk : a = k
    · simp [removeKey, hk, lookupKey, Ne.symm hne, ih]
    · simp [removeKey, hk, lookupKey, ih]

theorem insertReplace_of_lookup_eq {α : Type} (l : List (Nat × α)) (k : Nat) (v : α)
    (h : lookupKey l k = some v) : insertReplace l k v = l := by
  induction l with
  | nil => simp [lookupKey] at h
  | cons hd t ih =>
    obtain ⟨a, b⟩ := hd
    by_cases hk : a = k
    · subst hk
      simp [lookupKey] at h
      simp [insertReplace, h]
    · simp [lookupKey, hk] at h
      simp [insertReplace, hk, ih h]

theorem mem_keys_iff_lookup {α : Type} (l : List (Nat × α)) (k : Nat) :
    k ∈ l.map Prod.fst ↔ (lookupKey l k).isSome := by
  induction l with
  | nil => simp [lookupKey]
  | cons h t ih =>
    obtain ⟨a, b⟩ := h
    by_cases hk : a = k
    · simp [lookupKey, hk]
    · simp [lookupKey, hk, ih, Ne.symm hk]

theorem lookupKey_append_of_some {α : Type} {l₁ : List (Nat × α)} (l₂ : List (Nat × α))
    {k : Nat} {v : α} (h : lookupKey l₁ k = some v) : lookupKey (l₁ ++ l₂) k = some v := by
  induction l₁ with
  | nil => simp [lookupKey] at h
  | cons hd t ih =>
    obtain ⟨a, b⟩ := hd
    by_cases hk : a = k
    · simp [lookupKey, hk] at h ⊢
      exact h
    · simp [lookupKey, hk] at h ⊢
      exact ih h

theorem lookupKey_append_of_none {α : Type} {l₁ : List (Nat × α)} (l₂ : List (Nat × α))
    {k : Nat} (h : lookupKey l₁ k = none) : lookupKey (l₁ ++ l₂) k = lookupKey l₂ k := by
  induction l₁ with
  | nil => simp
  | cons hd t ih =>
    obtain ⟨a, b⟩ := hd
    by_cases hk : a = k
    · simp [lookupKey, hk] at h
    · simp [lookupKey, hk] at h ⊢
      exact ih h

theorem joinAll_all_ok (cs : List (Except Nat Unit)) (h : ∀ x ∈ cs, x = .ok ()) :
    joinAll cs = (.ok (), cs.length) := by
  induction cs with
  | nil => rfl
  | cons a t ih =>
    have ha := h a (by simp)
    subst ha
    simp [joinAll, ih (fun x hx => h x (by simp [hx]))]

theorem joinAll_first_error (pre : List (Except Nat Unit)) (e : Nat)
    (post : List (Except Nat Unit)) (h : ∀ x ∈ pre, x = .ok ()) :
    joinAll (pre ++ .error e :: post) = (.error e, pre.length + 1) := by
  induction pre with
  | nil => simp [joinAll]
  | cons a t ih =>
    have ha := h a (by simp)
    subst ha
    simp [joinAll, ih (fun x hx => h x (by simp [hx]))]

/-- C1 (amended): once the first daemon task completes, `run_daemons`
immediately cancels the root handle.  If that first task failed, its failure
is returned at once, without awaiting the remaining tasks (they are aborted
when the `JoinSet` is dropped); when the first task succeeded the remaining
tasks are awaited in completion order, again returning at the first observed
failure; only when every task succeeds does the call await all tasks before
returning success. -/
theorem claim_C1_theorem (r : DaemonRegistry) (cs : List (Except Nat Unit)) :
    (cs ≠ [] → (r.run_daemons cs).cancelledAfter = 1) ∧
    ((∀ x ∈ cs, x = .ok ()) →
      r.run_daemons cs = ⟨.ok (), cs.length, min 1 cs.length⟩) ∧
    (∀ pre e post, cs = pre ++ .error e :: post → (∀ x ∈ pre, x = .ok ()) →
      r.run_daemons cs = ⟨.error e, pre.length + 1, 1⟩) := by
  refine ⟨?_, ?_, ?_⟩
  · intro hne
    match cs with
    | [] => exact absurd rfl hne
    | .ok () :: rest => simp [DaemonRegistry.run_daemons]
    | .error e :: rest => simp [DaemonRegistry.run_daemons]
  · intro hok
    match cs with
    | [] => rfl
    | a :: rest =>
      have ha := hok a (by simp)
      subst ha
      have hrest := joinAll_all_ok rest (fun x hx => hok x (by simp [hx]))
      simp [DaemonRegistry.run_daemons, hrest]
  · intro pre e post hcs hpre
    subst hcs
    match pre, hpre with
    | [], _ => simp [DaemonRegistry.run_daemons]
    | a :: t, hpre =>
      have ha := hpre a (by simp)
      subst ha
      have ht := joinAll_first_error t e post (fun x hx => hpre x (by simp [hx]))
      simp [DaemonRegistry.run_daemons, ht]

/-- C1 counterexample: three daemons whose first completed task is an
immediate failure.  `run_daemons` returns that failure having awaited only
one task — it does not wait for daemons 2 and 3 to finish, contrary to the
claim that all remaining tasks are awaited before returning. -/
theorem claim_C1_counterexample :
    (DaemonRegistry.run_daemons ⟨[(1, 0), (2, 0), (3, 0)]⟩
        [Except.error 7, Except.ok (), Except.ok ()]).result = Except.error 7 ∧
    (DaemonRegistry.run_daemons ⟨[(1, 0), (2, 0), (3, 0)]⟩
        [Except.error 7, Except.ok (), Except.ok ()]).awaited = 1 ∧
    ¬((DaemonRegistry.run_daemons ⟨[(1, 0), (2, 0), (3, 0)]⟩
        [Except.error 7, Except.ok (), Except.ok ()]).awaited =
      [Except.error 7, Except.ok (), Except.ok ()].length) := by
  refine ⟨rfl, rfl, ?_⟩
  intro h
  simp [DaemonRegistry.run_daemons] at h

/-- C1 witness: instantiation of `claim_C1_theorem` where the second
completed task fails after a first success. -/
theorem claim_C1_witness :
    DaemonRegistry.run_daemons ⟨[]⟩ [Except.ok (), Except.error 5] =
      ⟨Except.error 5, 2, 1⟩ := by
  have h := (claim_C1_theorem ⟨[]⟩ [Except.ok (), Except.error 5]).2.2
  exact h [Except.ok ()] 5 [] rfl (by intro x hx; simp at hx; exact hx)

/-- C2 (amended): duplicate identities are rejected as fatal programming
errors for components, plugins and services (`add_component`, `add_plugin`,
`add_service` panic before any routine for the duplicate executes, also when
the duplicate registration happens inside a running build routine), but
`DaemonRegistry::add_daemon` performs no duplicate check: re-registering a
daemon identity silently replaces the previous daemon. -/
theorem claim_C2_theorem (b : AppBuilder) (r : DaemonRegistry)
    (id kind val tag : Nat) (res : Except Nat Nat) (deps : List Nat) (sub rest : Routine) :
    (b.has_plugin id = true → b.add_plugin id ⟨deps, sub⟩ = none) ∧
    (b.has_component kind = true → b.add_component kind val = none) ∧
    (b.has_plugin id = true → b.add_service id kind res deps = none) ∧
    (b.has_plugin id = true → Routine.run (.addPlugin id deps sub rest) b = .panicked) ∧
    ((r.add_daemon id tag).daemons = insertReplace r.daemons id tag ∧
      lookupKey (r.add_daemon id tag).daemons id = some tag) := by
  refine ⟨?_, ?_, ?_, ?_, rfl, lookupKey_insertReplace_self _ _ _⟩
  · intro h
    simp [AppBuilder.has_plugin] at h
    simp [AppBuilder.add_plugin, h]
  · intro h
    simp [AppBuilder.has_component] at h
    simp [AppBuilder.add_component, h]
  · intro h
    simp [AppBuilder.has_plugin] at h
    simp [AppBuilder.add_service, AppBuilder.add_plugin, h]
  · intro h
    simp [AppBuilder.has_plugin] at h
    simp [Routine.run, AppBuilder.add_plugin, h]

/-- C2 counterexample: re-registering daemon identity 4 is not rejected —
the call succeeds and silently replaces the stored daemon, refuting the
claim that `add_daemon` fails fast on a duplicate identity. -/
theorem claim_C2_counterexample :
    (⟨[(4, 1)]⟩ : DaemonRegistry).has_daemon 4 = true ∧
    DaemonRegistry.add_daemon ⟨[(4, 1)]⟩ 4 2 = ⟨[(4, 2)]⟩ ∧
    (DaemonRegistry.add_daemon ⟨[(4, 1)]⟩ 4 2).has_daemon 4 = true := by
  decide

/-- C2 witness: instantiation of `claim_C2_theorem` at a builder that
already holds plugin 1 and component kind 2. -/
theorem claim_C2_witness :
    AppBuilder.add_plugin ⟨[(2, 9)], [(1, ⟨[], .done⟩)], [1]⟩ 1 ⟨[], .done⟩ = none ∧
    AppBuilder.add_component ⟨[(2, 9)], [(1, ⟨[], .done⟩)], [1]⟩ 2 0 = none ∧
    AppBuilder.add_service ⟨[(2, 9)], [(1, ⟨[], .done⟩)], [1]⟩ 1 7 (.ok 0) [] = none ∧
    Routine.run (.addPlugin 1 [] .done .done) ⟨[(2, 9)], [(1, ⟨[], .done⟩)], [1]⟩ =
      .panicked := by
  have h := claim_C2_theorem ⟨[(2, 9)], [(1, ⟨[], .done⟩)], [1]⟩ ⟨[]⟩ 1 2 0 0 (.ok 0) [] .done .done
  exact ⟨h.1 (by decide), h.2.1 (by decide), h.2.2.1 (by decide), h.2.2.2.1 (by decide)⟩

/-- C8: with no daemon registry component the dispatch returns success
immediately, and a registry holding zero daemons (whose task set is
therefore empty) likewise returns success without awaiting anything. -/
theorem claim_C8_theorem (r : DaemonRegistry) (cs : List (Except Nat Unit)) :
    (App.run_daemons none cs = ⟨.ok (), 0, 0⟩) ∧
    (r.daemons = [] → cs.length = r.daemons.length →
      App.run_daemons (some r) cs = ⟨.ok (), 0, 0⟩) := by
  refine ⟨rfl, ?_⟩
  intro hd hlen
  rw [hd] at hlen
  simp at hlen
  subst hlen
  rfl

/-- C8 witness: instantiation of `claim_C8_theorem` at the empty registry. -/
theorem claim_C8_witness :
    App.run_daemons none [] = ⟨.ok (), 0, 0⟩ ∧
    App.run_daemons (some ⟨[]⟩) [] = ⟨.ok (), 0, 0⟩ := by
  exact ⟨(claim_C8_theorem ⟨[]⟩ []).1, (claim_C8_theorem ⟨[]⟩ []).2 rfl rfl⟩

/-- C9: the blanket service extractor returns the stored handle when the
component is present, panics (`unwrap`) when it is absent, and never returns
an `Err`; the `Component` extractor instead returns `MissingDependency` for
an absent component. -/
theorem claim_C9_theorem (b : AppBuilder) (kind v : Nat) :
    (b.get_component kind = some v → serviceExtract b kind = .ok v) ∧
    (b.get_component kind = none → serviceExtract b kind = .panicked) ∧
    (∀ e, serviceExtract b kind ≠ .err e) ∧
    (b.get_component kind = some v → componentExtract b kind = .ok v) ∧
    (b.get_component kind = none → componentExtract b kind = .err .missingDependency) := by
  refine ⟨?_, ?_, ?_, ?_, ?_⟩
  · intro h
    simp [serviceExtract, h]
  · intro h
    simp [serviceExtract, h]
  · intro e
    unfold serviceExtract
    match hc : b.get_component kind with
    | some w => simp
    | none => simp
  · intro h
    simp [componentExtract, h]
  · intro h
    simp [componentExtract, h]

theorem buildLoop_ok_builder (fuel : Nat) :
    ∀ b graph used log app b' log' graph',
      buildLoop fuel b graph used log = .ok app b' log' graph' → b' = ⟨[], [], []⟩ := by
  induction fuel with
  | zero =>
    intro b graph used log app b' log' graph' h
    simp [buildLoop] at h
  | succ fuel ih =>
    intro b graph used log app b' log' graph' h
    simp only [buildLoop] at h
    split at h
    · cases h
      rfl
    · split at h
      · cases h
      · split at h
        · cases h
        · cases h
        · split at h
          · cases h
          · split at h
            · cases h
            · cases h
            · exact ih _ _ _ _ _ _ _ _ h

/-- C10: a successful `build()` drains the builder — the caller's builder is
left with empty component, plugin and pending-plugin collections, and an
immediately repeated `build()` on that drained builder returns an `App`
containing no components (the components present at the fixed point were
moved into the returned `App`). -/
theorem claim_C10_theorem (b : AppBuilder) (app : App) (b' : AppBuilder)
    (log : List Nat) (graph : List (Nat × List Nat))
    (h : b.build = .ok app b' log graph) :
    b' = ⟨[], [], []⟩ ∧
    AppBuilder.build ⟨[], [], []⟩ = .ok ⟨[]⟩ ⟨[], [], []⟩ [] [] :=
  ⟨buildLoop_ok_builder (buildFuel b) b [] [] [] app b' log graph h, rfl⟩

/-- C10 witness: instantiation of `claim_C10_theorem` at a builder holding
one component and one plugin whose routine registers a second component. -/
theorem claim_C10_witness :
    (⟨[], [], []⟩ : AppBuilder) = ⟨[], [], []⟩ ∧
    AppBuilder.build ⟨[], [], []⟩ = .ok ⟨[]⟩ ⟨[], [], []⟩ [] [] :=
  claim_C10_theorem ⟨[(5, 77)], [(1, ⟨[], .addComponent 6 88 .done⟩)], [1]⟩
    ⟨[(5, 77), (6, 88)]⟩ ⟨[], [], []⟩ [1] [(1, [])] (by decide)

/-- C4: an identity whose dependency is absent from the graph is deferred
(`Ok(false)`) rather than failing the build, and dynamic discovery succeeds:
registering C (identity 30, whose build routine registers A = identity 10)
and then B (identity 20, depending on A) builds successfully — C runs first
and registers A, then A runs before B, giving the executed order
[C, A, B] = [30, 10, 20]. -/
theorem claim_C4_theorem :
    (∀ fuel id graph order used, lookupKey graph id = none →
      topoSort (fuel + 1) id graph order used = .ok false order used) ∧
    (App.builder.add_plugin 30 ⟨[], .addPlugin 10 [] .done .done⟩ |>.bind
      (fun b => b.add_plugin 20 ⟨[10], .done⟩)) =
      some ⟨[], [(30, ⟨[], .addPlugin 10 [] .done .done⟩), (20, ⟨[10], .done⟩)], [30, 20]⟩ ∧
    AppBuilder.build
        ⟨[], [(30, ⟨[], .addPlugin 10 [] .done .done⟩), (20, ⟨[10], .done⟩)], [30, 20]⟩ =
      .ok ⟨[]⟩ ⟨[], [], []⟩ [30, 10, 20] [(30, []), (20, [10]), (10, [])] := by
  refine ⟨?_, by decide, by decide⟩
  intro fuel id graph order used h
  simp [topoSort, h]

/-- C4 witness: instantiation of the deferral clause of `claim_C4_theorem`
at an identity absent from a concrete graph. -/
theorem claim_C4_witness :
    topoSort 1 99 [(1, [])] [] [] = .ok false [] [] :=
  (claim_C4_theorem).1 0 99 [(1, [])] [] [] (by decide)

theorem runOrder_stops_at_error (ids₁ : List Nat) (x : Nat) (ids₂ : List Nat) :
    ∀ b log b₁ log₁ p e,
      runOrder ids₁ b log = .ok b₁ log₁ →
      lookupKey b₁.plugins x = some p →
      p.routine.run b₁ = .err e →
      runOrder (ids₁ ++ x :: ids₂) b log = .err e (log₁ ++ [x]) := by
  induction ids₁ with
  | nil =>
    intro b log b₁ log₁ p e h hx hr
    simp [runOrder] at h
    obtain ⟨hb, hl⟩ := h
    subst hb
    subst hl
    simp [runOrder, hx, hr]
  | cons a t ih =>
    intro b log b₁ log₁ p e h hx hr
    simp only [runOrder] at h
    match ha : lookupKey b.plugins a with
    | none => simp only [ha] at h; cases h
    | some q =>
      simp only [ha] at h
      match hq : q.routine.run b with
      | .ok b₂ =>
        simp only [hq] at h
        simpa [runOrder, ha, hq] using ih b₂ (log ++ [a]) b₁ log₁ p e h hx hr
      | .err e' => simp only [hq] at h; cases h
      | .panicked => simp only [hq] at h; cases h

/-- C7: a build routine returning an error stops the build immediately —
no identity scheduled after the failing one is executed, and the result is
`PluginError` wrapping the routine's error rather than any `App`.  The
general clause states this for the execution phase of a round: whatever
identities follow the failing one, execution ends at the failure with the
log recording only the routines that actually ran.  The concrete clause runs
three plugins where the second fails with error 5: the build returns
`PluginError 5`, plugin 3 never executes, and no `App` is returned. -/
theorem claim_C7_theorem :
    (∀ ids₁ x ids₂ b log b₁ log₁ p e,
      runOrder ids₁ b log = .ok b₁ log₁ →
      lookupKey b₁.plugins x = some p →
      p.routine.run b₁ = .err e →
      runOrder (ids₁ ++ x :: ids₂) b log = .err e (log₁ ++ [x])) ∧
    AppBuilder.build ⟨[], [(1, ⟨[], .done⟩), (2, ⟨[], .fail 5⟩), (3, ⟨[], .done⟩)], [1, 2, 3]⟩ =
      .err (.pluginError 5) [1, 2] [(1, []), (2, []), (3, [])] ∧
    ¬(3 ∈ ([1, 2] : List Nat)) ∧
    (∀ app b' l g,
      AppBuilder.build
          ⟨[], [(1, ⟨[], .done⟩), (2, ⟨[], .fail 5⟩), (3, ⟨[], .done⟩)], [1, 2, 3]⟩ ≠
        .ok app b' l g) := by
  refine ⟨?_, by decide, by decide, ?_⟩
  · intro ids₁ x ids₂ b log b₁ log₁ p e h hx hr
    exact runOrder_stops_at_error ids₁ x ids₂ b log b₁ log₁ p e h hx hr
  · intro app b' l g h
    rw [show AppBuilder.build
        ⟨[], [(1, ⟨[], .done⟩), (2, ⟨[], .fail 5⟩), (3, ⟨[], .done⟩)], [1, 2, 3]⟩ =
      .err (.pluginError 5) [1, 2] [(1, []), (2, []), (3, [])] from by decide] at h
    cases h

/-- C7 witness: instantiation of the execution-phase clause of
`claim_C7_theorem` where the first plugin's routine fails with error 9 and a
second plugin never runs. -/
theorem claim_C7_witness :
    runOrder ([] ++ 1 :: [2]) ⟨[], [(1, ⟨[], .fail 9⟩), (2, ⟨[], .done⟩)], []⟩ [] =
      .err 9 ([] ++ [1]) :=
  (claim_C7_theorem).1 [] 1 [2] ⟨[], [(1, ⟨[], .fail 9⟩), (2, ⟨[], .done⟩)], []⟩ []
    ⟨[], [(1, ⟨[], .fail 9⟩), (2, ⟨[], .done⟩)], []⟩ [] ⟨[], .fail 9⟩ 9
    (by decide) (by decide) (by decide)

/-- C9 witness: instantiation of `claim_C9_theorem` at a builder holding
component kind 3 with value 42 and nothing of kind 9. -/
theorem claim_C9_witness :
    serviceExtract ⟨[(3, 42)], [], []⟩ 3 = .ok 42 ∧
    serviceExtract ⟨[(3, 42)], [], []⟩ 9 = .panicked ∧
    componentExtract ⟨[(3, 42)], [], []⟩ 9 = .err .missingDependency := by
  refine ⟨(claim_C9_theorem ⟨[(3, 42)], [], []⟩ 3 42).1 (by decide),
    (claim_C9_theorem ⟨[(3, 42)], [], []⟩ 9 42).2.1 (by decide),
    (claim_C9_theorem ⟨[(3, 42)], [], []⟩ 9 42).2.2.2.2 (by decide)⟩

theorem filter_length_lt {l : List Nat} {p q : Nat → Bool}
    (hpq : ∀ a ∈ l, q a = true → p a = true) {x : Nat} (hx : x ∈ l)
    (hqx : q x = false) (hpx : p x = true) :
    (l.filter q).length < (l.filter p).length := by
  induction l with
  | nil => cases hx
  | cons a t ih =>
    rcases List.mem_cons.mp hx with h | h
    · subst h
      rw [List.filter_cons_of_neg (by simp [hqx]), List.filter_cons_of_pos (by simp [hpx])]
      simp only [List.length_cons]
      have hmono : (t.filter q).length ≤ (t.filter p).length := by
        rw [← List.countP_eq_length_filter, ← List.countP_eq_length_filter]
        exact List.countP_mono_left (fun a ha hqa => hpq a (List.mem_cons_of_mem _ ha) hqa)
      omega
    · have ih' := ih (fun a ha => hpq a (List.mem_cons_of_mem _ ha)) h
      by_cases hqa : q a = true
      · rw [List.filter_cons_of_pos (by simp [hqa]),
          List.filter_cons_of_pos (by simp [hpq a (List.mem_cons_self _ _) hqa])]
        simpa using ih'
      · rw [List.filter_cons_of_neg (by simp [hqa])]
        by_cases hpa : p a = true
        · rw [List.filter_cons_of_pos (by simp [hpa])]
          simp only [List.length_cons]
          omega
        · rw [List.filter_cons_of_neg (by simp [hpa])]
          exact ih'

theorem countNonPending_le (graph : List (Nat × List Nat))
    (used : List (Nat × DependencyStatus)) :
    countNonPending graph used ≤ graph.length :=
  le_trans (List.length_filter_le _ _) (by simp)

theorem countNonPending_congr (graph : List (Nat × List Nat))
    {u u' : List (Nat × DependencyStatus)}
    (h : ∀ k, lookupKey u' k = some DependencyStatus.pending ↔
      lookupKey u k = some DependencyStatus.pending) :
    countNonPending graph u' = countNonPending graph u := by
  unfold countNonPending
  congr 1
  apply List.filter_congr
  intro a _
  rw [decide_eq_decide]
  exact not_congr (h a)

theorem countNonPending_insert_lt (graph : List (Nat × List Nat))
    (used : List (Nat × DependencyStatus)) {id : Nat}
    (hid : (lookupKey graph id).isSome)
    (hnp : lookupKey used id ≠ some DependencyStatus.pending) :
    countNonPending graph (insertReplace used id .pending) < countNonPending graph used := by
  unfold countNonPending
  apply filter_length_lt (x := id)
  · intro a _ hq
    by_cases ha : a = id
    · subst ha
      rw [lookupKey_insertReplace_self] at hq
      simp at hq
    · rw [lookupKey_insertReplace_of_ne _ _ ha] at hq
      exact hq
  · exact (mem_keys_iff_lookup graph id).mpr hid
  · simp [lookupKey_insertReplace_self]
  · simp [hnp]

theorem orderedFrom_append_iff (graph : List (Nat × List Nat)) (o₁ : List Nat) :
    ∀ s o₂, orderedFrom graph s (o₁ ++ o₂) ↔
      (orderedFrom graph s o₁ ∧ orderedFrom graph (s ++ o₁) o₂) := by
  induction o₁ with
  | nil => intro s o₂; simp [orderedFrom]
  | cons a t ih =>
    intro s o₂
    simp only [List.cons_append, orderedFrom, List.append_eq]
    rw [ih (s ++ [a]) o₂, show (s ++ [a]) ++ t = s ++ a :: t by simp, and_assoc]

theorem orderedFrom_mono (graph : List (Nat × List Nat)) (o : List Nat) :
    ∀ s s', (∀ x ∈ s, x ∈ s') → orderedFrom graph s o → orderedFrom graph s' o := by
  induction o with
  | nil => intro s s' _ _; trivial
  | cons a t ih =>
    intro s s' hsub h
    obtain ⟨hd, ht⟩ := h
    refine ⟨fun d hd' => hsub d (hd d hd'), ih (s ++ [a]) (s' ++ [a]) ?_ ht⟩
    intro x hx
    rcases List.mem_append.mp hx with h | h
    · exact List.mem_append.mpr (Or.inl (hsub x h))
    · exact List.mem_append.mpr (Or.inr h)

theorem orderedFrom_graph_congr (g g' : List (Nat × List Nat)) (o : List Nat) :
    ∀ s, (∀ id ∈ o, lookupKey g' id = lookupKey g id) →
      orderedFrom g s o → orderedFrom g' s o := by
  induction o with
  | nil => intro s _ _; trivial
  | cons a t ih =>
    intro s hsame h
    obtain ⟨hd, ht⟩ := h
    refine ⟨?_, ih (s ++ [a]) (fun id hid => hsame id (List.mem_cons_of_mem _ hid)) ht⟩
    rw [hsame a (List.mem_cons_self _ _)]
    exact hd

theorem ready_not_reachesAbsent {graph : List (Nat × List Nat)}
    {used : List (Nat × DependencyStatus)} (hc : ReadyClosed graph used)
    (hs : UsedSub graph used) {k : Nat} (hk : lookupKey used k = some .ready) :
    ¬ReachesAbsent graph k := by
  have main : ∀ j, ReachesAbsent graph j → lookupKey used j = some .ready → False := by
    intro j hra
    induction hra with
    | absent i h =>
      intro hready
      have := hs i (by simp [hready])
      simp [h] at this
    | step i d ds hg hd _ ih =>
      intro hready
      obtain ⟨ds', hg', hall⟩ := hc i hready
      rw [hg] at hg'
      injection hg' with h'
      subst h'
      exact ih (hall d hd)
  exact fun hra => main k hra hk

theorem reachesAbsent_witness {graph : List (Nat × List Nat)} {id : Nat}
    (hra : ReachesAbsent graph id) :
    (lookupKey graph id).isSome →
    ∃ k ds d, lookupKey graph k = some ds ∧ d ∈ ds ∧ lookupKey graph d = none := by
  induction hra with
  | absent i h =>
    intro hid
    rw [h] at hid
    simp at hid
  | step i d ds hg hd _ ih =>
    intro _
    match hdg : lookupKey graph d with
    | some ds' => exact ih (by simp [hdg])
    | none => exact ⟨i, ds, d, hg, hd, hdg⟩

theorem closed_not_reachesAbsent {graph : List (Nat × List Nat)} (hcl : closedGraph graph)
    {id : Nat} (hid : (lookupKey graph id).isSome) : ¬ReachesAbsent graph id := by
  have main : ∀ j, ReachesAbsent graph j → (lookupKey graph j).isSome → False := by
    intro j hra
    induction hra with
    | absent i h =>
      intro hi
      rw [h] at hi
      simp at hi
    | step i d ds hg hd _ ih =>
      intro _
      exact ih (hcl i ds hg d hd)
  exact fun hra => main id hra hid

theorem mem_keys_insertReplace {α : Type} (l : List (Nat × α)) (k a : Nat) (v : α) :
    a ∈ (insertReplace l k v).map Prod.fst ↔ a ∈ l.map Prod.fst ∨ a = k := by
  induction l with
  | nil => simp [insertReplace]
  | cons hd t ih =>
    obtain ⟨x, y⟩ := hd
    by_cases hk : x = k
    · subst hk
      simp [insertReplace]
      tauto
    · simp [insertReplace, hk, ih]
      tauto

theorem keys_nodup_insertReplace {α : Type} (l : List (Nat × α)) (k : Nat) (v : α)
    (h : (l.map Prod.fst).Nodup) : ((insertReplace l k v).map Prod.fst).Nodup := by
  induction l with
  | nil => simp [insertReplace]
  | cons hd t ih =>
    obtain ⟨x, y⟩ := hd
    rw [List.map_cons, List.nodup_cons] at h
    by_cases hk : x = k
    · subst hk
      rw [show insertReplace ((x, y) :: t) x v = (x, v) :: t from by simp [insertReplace],
        List.map_cons, List.nodup_cons]
      exact h
    · rw [show insertReplace ((x, y) :: t) k v = (x, y) :: insertReplace t k v from by
        simp [insertReplace, hk], List.map_cons, List.nodup_cons]
      refine ⟨?_, ih h.2⟩
      intro hmem
      rcases (mem_keys_insertReplace t k x v).mp hmem with hm | hm
      · exact h.1 hm
      · exact hk hm

theorem topoVisit_spec_of (fuel : Nat)
    (hS : ∀ id pre graph order used, TopoSortSpec fuel id pre graph order used) :
    ∀ deps id pre graph order used, TopoVisitSpec fuel id deps pre graph order used := by
  intro deps
  induction deps with
  | nil =>
    intro id pre graph order used hG hU hidp hcount hreach hcons
    obtain ⟨consumed, hgid, hcall⟩ := hcons
    rw [List.append_nil] at hgid
    have hres : topoVisit fuel id [] graph order used =
        .ok true (order ++ [id]) (insertReplace used id .ready) := by
      simp [topoVisit, topoVisitF]
    rw [hres]
    have hidG : (lookupKey graph id).isSome := by simp [hgid]
    have hidNotMem : id ∉ pre ++ order := by
      intro hmem
      have := (hU.inv id).mpr hmem
      rw [hidp] at this
      cases this
    have hdne : ∀ d ∈ consumed, d ≠ id := by
      intro d hd he
      subst he
      rw [hcall d hd] at hidp
      cases hidp
    refine ⟨⟨?_, ?_, ?_, ?_, ?_⟩, ⟨[id], rfl⟩, ?_, ?_, lookupKey_insertReplace_self _ _ _⟩
    · intro k
      by_cases hk : k = id
      · subst hk
        rw [lookupKey_insertReplace_self]
        simp
      · rw [lookupKey_insertReplace_of_ne _ _ hk, hU.inv k]
        simp [List.mem_append, hk]
    · intro k hk
      by_cases hke : k = id
      · subst hke
        exact hidG
      · rw [lookupKey_insertReplace_of_ne _ _ hke] at hk
        exact hU.sub k hk
    · intro k hk
      by_cases hke : k = id
      · subst hke
        refine ⟨consumed, hgid, ?_⟩
        intro d hd
        rw [lookupKey_insertReplace_of_ne _ _ (hdne d hd)]
        exact hcall d hd
      · rw [lookupKey_insertReplace_of_ne _ _ hke] at hk
        obtain ⟨ds, hgk, hds⟩ := hU.closed k hk
        refine ⟨ds, hgk, ?_⟩
        intro d hd
        have hdne' : d ≠ id := by
          intro he
          subst he
          rw [hds d hd] at hidp
          cases hidp
        rw [lookupKey_insertReplace_of_ne _ _ hdne']
        exact hds d hd
    · rw [← List.append_assoc]
      rw [orderedFrom_append_iff]
      refine ⟨hU.ordered, ?_, trivial⟩
      intro d hd
      rw [hgid] at hd
      simp only [Option.getD_some] at hd
      simpa using (hU.inv d).mp (hcall d hd)
    · rw [← List.append_assoc]
      rw [List.nodup_append]
      exact ⟨hU.nodup, List.nodup_singleton _, by
        intro x hx hx'
        rw [List.mem_singleton] at hx'
        subst hx'
        exact hidNotMem hx⟩
    · intro k
      by_cases hk : k = id
      · subst hk
        rw [lookupKey_insertReplace_self]
        simp
      · rw [lookupKey_insertReplace_of_ne _ _ hk]
        simp [hk]
    · intro k hk
      have hke : k ≠ id := by
        intro he
        subst he
        rw [hk] at hidp
        cases hidp
      rw [lookupKey_insertReplace_of_ne _ _ hke]
      exact hk
  | cons d rest ih =>
    intro id pre graph order used hG hU hidp hcount hreach hcons
    obtain ⟨consumed, hgid, hcall⟩ := hcons
    have hedge : edgeOf graph id d := ⟨consumed ++ d :: rest, hgid, by simp⟩
    match hd : lookupKey used d with
    | some .pending =>
      have hres : topoVisit fuel id (d :: rest) graph order used = .err .circularDependency := by
        simp [topoVisit, topoVisitF, hd]
      rw [hres]
      exact ⟨rfl, d, Relation.TransGen.tail' (hreach d hd) hedge⟩
    | some .ready =>
      have hres : topoVisit fuel id (d :: rest) graph order used =
          topoVisit fuel id rest graph order used := by
        simp [topoVisit, topoVisitF, hd]
      rw [hres]
      refine ih id pre graph order used hG hU hidp hcount hreach ⟨consumed ++ [d], ?_, ?_⟩
      · rw [List.append_assoc, List.singleton_append]
        exact hgid
      · intro d' hd'
        rcases List.mem_append.mp hd' with hm | hm
        · exact hcall d' hm
        · rw [List.mem_singleton] at hm
          subst hm
          exact hd
    | none =>
      have hSd := hS d pre graph order used hG hU hd hcount
        (fun k hk => Relation.TransGen.tail' (hreach k hk) hedge)
      match hts : topoSort fuel d graph order used with
      | .outOfFuel =>
        rw [hts] at hSd
        exact hSd.elim
      | .err e =>
        rw [hts] at hSd
        have hres : topoVisit fuel id (d :: rest) graph order used = .err e := by
          simp [topoVisit, topoVisitF, hd, hts]
        rw [hres]
        exact hSd
      | .ok true order' used' =>
        rw [hts] at hSd
        obtain ⟨hU', hdelta, hpend, hrle, hdready⟩ := hSd
        have hres : topoVisit fuel id (d :: rest) graph order used =
            topoVisit fuel id rest graph order' used' := by
          simp [topoVisit, topoVisitF, hd, hts]
        rw [hres]
        have hidp' : lookupKey used' id = some .pending := (hpend id).mpr hidp
        have hcount' : countNonPending graph used' < fuel := by
          rw [countNonPending_congr graph hpend]
          exact hcount
        have hreach' : ∀ k, lookupKey used' k = some .pending →
            Relation.ReflTransGen (edgeOf graph) k id :=
          fun k hk => hreach k ((hpend k).mp hk)
        have hcons' : ∃ consumed', lookupKey graph id = some (consumed' ++ rest) ∧
            ∀ d' ∈ consumed', lookupKey used' d' = some .ready := by
          refine ⟨consumed ++ [d], ?_, ?_⟩
          · rw [List.append_assoc, List.singleton_append]
            exact hgid
          · intro d' hd'
            rcases List.mem_append.mp hd' with hm | hm
            · exact hrle d' (hcall d' hm)
            · rw [List.mem_singleton] at hm
              subst hm
              exact hdready
        have hmain := ih id pre graph order' used' hG hU' hidp' hcount' hreach' hcons'
        match hres2 : topoVisit fuel id rest graph order' used' with
        | .outOfFuel =>
          rw [hres2] at hmain
          exact hmain
        | .err e =>
          rw [hres2] at hmain
          exact hmain
        | .ok true order'' used'' =>
          rw [hres2] at hmain
          obtain ⟨hU'', hdelta2, hpend2, hrle2, hidr⟩ := hmain
          refine ⟨hU'', ?_, ?_, ?_, hidr⟩
          · obtain ⟨δ1, h1⟩ := hdelta
            obtain ⟨δ2, h2⟩ := hdelta2
            exact ⟨δ1 ++ δ2, by rw [h2, h1, List.append_assoc]⟩
          · intro k
            rw [hpend2 k, hpend k]
          · intro k hk
            exact hrle2 k (hrle k hk)
        | .ok false order'' used'' =>
          rw [hres2] at hmain
          obtain ⟨hU'', hdelta2, hpend2, hrle2, hidn, hra⟩ := hmain
          refine ⟨hU'', ?_, ?_, ?_, hidn, hra⟩
          · obtain ⟨δ1, h1⟩ := hdelta
            obtain ⟨δ2, h2⟩ := hdelta2
            exact ⟨δ1 ++ δ2, by rw [h2, h1, List.append_assoc]⟩
          · intro k
            rw [hpend2 k, hpend k]
          · intro k hk
            exact hrle2 k (hrle k hk)
      | .ok false order' used' =>
        rw [hts] at hSd
        obtain ⟨hU', hdelta, hpend, hrle, hdnone, hrad⟩ := hSd
        have hres : topoVisit fuel id (d :: rest) graph order used =
            .ok false order' (removeKey used' id) := by
          simp [topoVisit, topoVisitF, hd, hts]
        rw [hres]
        have hidp' : lookupKey used' id = some .pending := (hpend id).mpr hidp
        have hidnotready : id ∉ pre ++ order' := by
          intro hmem
          have := (hU'.inv id).mpr hmem
          rw [hidp'] at this
          cases this
        refine ⟨⟨?_, ?_, ?_, hU'.ordered, hU'.nodup⟩, hdelta, ?_, ?_,
          lookupKey_removeKey_self _ _, .step id d _ hgid (by simp) hrad⟩
        · intro k
          by_cases hk : k = id
          · subst hk
            rw [lookupKey_removeKey_self]
            simp [hidnotready]
          · rw [lookupKey_removeKey_of_ne _ hk]
            exact hU'.inv k
        · intro k hk
          by_cases hke : k = id
          · subst hke
            rw [lookupKey_removeKey_self] at hk
            cases hk
          · rw [lookupKey_removeKey_of_ne _ hke] at hk
            exact hU'.sub k hk
        · intro k hk
          have hke : k ≠ id := by
            intro he
            subst he
            rw [lookupKey_removeKey_self] at hk
            cases hk
          rw [lookupKey_removeKey_of_ne _ hke] at hk
          obtain ⟨ds, hgk, hds⟩ := hU'.closed k hk
          refine ⟨ds, hgk, ?_⟩
          intro d' hd'
          have hdne' : d' ≠ id := by
            intro he
            subst he
            rw [hds d' hd'] at hidp'
            cases hidp'
          rw [lookupKey_removeKey_of_ne _ hdne']
          exact hds d' hd'
        · intro k
          by_cases hk : k = id
          · subst hk
            rw [lookupKey_removeKey_self]
            simp
          · rw [lookupKey_removeKey_of_ne _ hk, hpend k]
            simp [hk]
        · intro k hk
          have hke : k ≠ id := by
            intro he
            subst he
            rw [hk] at hidp
            cases hidp
          rw [lookupKey_removeKey_of_ne _ hke]
          exact hrle k hk

theorem topoSort_spec : ∀ fuel id pre graph order used,
    TopoSortSpec fuel id pre graph order used := by
  intro fuel
  induction fuel with
  | zero =>
    intro id pre graph order used hG hU hid hcount hreach
    exact absurd hcount (by omega)
  | succ fuel ihS =>
    intro id pre graph order used hG hU hid hcount hreach
    match hg : lookupKey graph id with
    | none =>
      have hres : topoSort (fuel + 1) id graph order used = .ok false order used := by
        simp [topoSort, hg]
      rw [hres]
      exact ⟨hU, ⟨[], by simp⟩, fun k => Iff.rfl, fun k hk => hk, hid, .absent id hg⟩
    | some deps =>
      have hres : topoSort (fuel + 1) id graph order used =
          topoVisit fuel id deps graph order (insertReplace used id .pending) := by
        simp [topoSort, topoVisit, hg]
      rw [hres]
      have hidG : (lookupKey graph id).isSome := by simp [hg]
      have hidNotMem : id ∉ pre ++ order := by
        intro hmem
        have := (hU.inv id).mpr hmem
        rw [hid] at this
        cases this
      have hU1 : UsedState graph (pre ++ order) (insertReplace used id .pending) := by
        refine ⟨?_, ?_, ?_, hU.ordered, hU.nodup⟩
        · intro k
          by_cases hk : k = id
          · subst hk
            rw [lookupKey_insertReplace_self]
            simp [hidNotMem]
          · rw [lookupKey_insertReplace_of_ne _ _ hk]
            exact hU.inv k
        · intro k hk
          by_cases hke : k = id
          · subst hke
            exact hidG
          · rw [lookupKey_insertReplace_of_ne _ _ hke] at hk
            exact hU.sub k hk
        · intro k hk
          have hke : k ≠ id := by
            intro he
            subst he
            rw [lookupKey_insertReplace_self] at hk
            cases hk
          rw [lookupKey_insertReplace_of_ne _ _ hke] at hk
          obtain ⟨ds, hgk, hds⟩ := hU.closed k hk
          refine ⟨ds, hgk, ?_⟩
          intro d' hd'
          have hdne' : d' ≠ id := by
            intro he
            subst he
            rw [hds d' hd'] at hid
            cases hid
          rw [lookupKey_insertReplace_of_ne _ _ hdne']
          exact hds d' hd'
      have hc1 : countNonPending graph (insertReplace used id .pending) < fuel := by
        have hlt := countNonPending_insert_lt graph used hidG (by rw [hid]; simp)
        omega
      have hr1 : ∀ k, lookupKey (insertReplace used id .pending) k = some .pending →
          Relation.ReflTransGen (edgeOf graph) k id := by
        intro k hk
        by_cases hke : k = id
        · subst hke
          exact Relation.ReflTransGen.refl
        · rw [lookupKey_insertReplace_of_ne _ _ hke] at hk
          exact (hreach k hk).to_reflTransGen
      have hcons1 : ∃ consumed, lookupKey graph id = some (consumed ++ deps) ∧
          ∀ d' ∈ consumed, lookupKey (insertReplace used id .pending) d' = some .ready :=
        ⟨[], by simpa using hg, by simp⟩
      have hV := topoVisit_spec_of fuel ihS deps id pre graph order
        (insertReplace used id .pending) hG hU1 (lookupKey_insertReplace_self _ _ _)
        hc1 hr1 hcons1
      match hv : topoVisit fuel id deps graph order (insertReplace used id .pending) with
      | .outOfFuel =>
        rw [hv] at hV
        exact hV
      | .err e =>
        rw [hv] at hV
        exact hV
      | .ok true order' used' =>
        rw [hv] at hV
        obtain ⟨hU', hdelta, hpend, hrle, hidr⟩ := hV
        refine ⟨hU', hdelta, ?_, ?_, hidr⟩
        · intro k
          rw [hpend k]
          by_cases hk : k = id
          · subst hk
            simp [hid]
          · rw [lookupKey_insertReplace_of_ne _ _ hk]
            simp [hk]
        · intro k hk
          have hke : k ≠ id := by
            intro he
            subst he
            rw [hk] at hid
            cases hid
          apply hrle
          rw [lookupKey_insertReplace_of_ne _ _ hke]
          exact hk
      | .ok false order' used' =>
        rw [hv] at hV
        obtain ⟨hU', hdelta, hpend, hrle, hidn, hra⟩ := hV
        refine ⟨hU', hdelta, ?_, ?_, hidn, hra⟩
        · intro k
          rw [hpend k]
          by_cases hk : k = id
          · subst hk
            simp [hid]
          · rw [lookupKey_insertReplace_of_ne _ _ hk]
            simp [hk]
        · intro k hk
          have hke : k ≠ id := by
            intro he
            subst he
            rw [hk] at hid
            cases hid
          apply hrle
          rw [lookupKey_insertReplace_of_ne _ _ hke]
          exact hk

theorem insertGraph_spec (P : List Nat) :
    ∀ (plugins : List (Nat × PluginDef)) (graph graph' : List (Nat × List Nat)),
      insertGraph P plugins graph = some graph' →
      (∀ k, k ∉ P → lookupKey graph' k = lookupKey graph k) ∧
      (∀ k, k ∈ P → ∃ p, lookupKey plugins k = some p ∧ lookupKey graph' k = some p.deps) ∧
      ((graph.map Prod.fst).Nodup → (graph'.map Prod.fst).Nodup) ∧
      (∀ k, (lookupKey graph' k).isSome → (lookupKey graph k).isSome ∨ k ∈ P) := by
  induction P with
  | nil =>
    intro plugins graph graph' h
    simp only [insertGraph] at h
    injection h with h
    subst h
    exact ⟨fun k _ => rfl, by simp, fun h => h, fun k hk => Or.inl hk⟩
  | cons id rest ihP =>
    intro plugins graph graph' h
    simp only [insertGraph] at h
    match hp : lookupKey plugins id with
    | none => rw [hp] at h; cases h
    | some p =>
      rw [hp] at h
      obtain ⟨h1, h2, h3, h4⟩ := ihP plugins (insertReplace graph id p.deps) graph' h
      refine ⟨?_, ?_, ?_, ?_⟩
      · intro k hk
        have hkr : k ∉ rest := fun hm => hk (List.mem_cons_of_mem _ hm)
        have hki : k ≠ id := fun he => hk (by rw [he]; exact List.mem_cons_self _ _)
        rw [h1 k hkr, lookupKey_insertReplace_of_ne _ _ hki]
      · intro k hk
        rcases List.mem_cons.mp hk with he | hm
        · subst he
          by_cases hkr : k ∈ rest
          · exact h2 k hkr
          · refine ⟨p, hp, ?_⟩
            rw [h1 k hkr, lookupKey_insertReplace_self]
        · exact h2 k hm
      · intro hnd
        exact h3 (keys_nodup_insertReplace _ _ _ hnd)
      · intro k hk
        rcases h4 k hk with hs | hm
        · have := (mem_keys_iff_lookup _ k).mpr hs
          rcases (mem_keys_insertReplace graph id k p.deps).mp this with hm' | he
          · exact Or.inl ((mem_keys_iff_lookup _ k).mp hm')
          · exact Or.inr (by rw [he]; exact List.mem_cons_self _ _)
        · exact Or.inr (List.mem_cons_of_mem _ hm)

theorem insertGraph_total (P : List Nat) :
    ∀ plugins graph, (∀ id ∈ P, (lookupKey plugins id).isSome) →
      (insertGraph P plugins graph).isSome := by
  induction P with
  | nil => intro plugins graph _; simp [insertGraph]
  | cons id rest ihP =>
    intro plugins graph hreg
    have := hreg id (List.mem_cons_self _ _)
    match hp : lookupKey plugins id with
    | none => rw [hp] at this; simp at this
    | some p =>
      simp only [insertGraph, hp]
      exact ihP plugins _ (fun i hi => hreg i (List.mem_cons_of_mem _ hi))

theorem insertGraph_id (P : List Nat) :
    ∀ (plugins : List (Nat × PluginDef)) (graph : List (Nat × List Nat)),
      (∀ id ∈ P, ∃ p, lookupKey plugins id = some p ∧ lookupKey graph id = some p.deps) →
      insertGraph P plugins graph = some graph := by
  induction P with
  | nil => intro plugins graph _; rfl
  | cons id rest ihP =>
    intro plugins graph hagree
    obtain ⟨p, hp, hg⟩ := hagree id (List.mem_cons_self _ _)
    simp only [insertGraph, hp]
    rw [insertReplace_of_lookup_eq _ _ _ hg]
    exact ihP plugins graph (fun i hi => hagree i (List.mem_cons_of_mem _ hi))

theorem topoRound_spec (P : List Nat) :
    ∀ pre (graph : List (Nat × List Nat)) order used deferred,
      (graph.map Prod.fst).Nodup →
      UsedState graph (pre ++ order) used →
      (∀ k, lookupKey used k ≠ some .pending) →
      (∀ id ∈ P, (lookupKey graph id).isSome) →
      match topoRound P graph order used deferred with
      | .err e => e = .circularDependency ∧ cyclicGraph graph
      | .outOfFuel => False
      | .ok order' used' deferred' =>
          UsedState graph (pre ++ order') used' ∧
          (∀ k, lookupKey used' k ≠ some .pending) ∧
          (∃ delta, order' = order ++ delta) ∧
          (∃ dd, deferred' = deferred ++ dd ∧
            ∀ id ∈ dd, id ∈ P ∧ ReachesAbsent graph id ∧ lookupKey used' id = none) ∧
          (∀ id ∈ P, lookupKey used' id = some .ready ∨ id ∈ deferred') ∧
          (∀ k, lookupKey used k = some .ready → lookupKey used' k = some .ready) := by
  induction P with
  | nil =>
    intro pre graph order used deferred _ hU hnp _
    exact ⟨hU, hnp, ⟨[], by simp⟩, ⟨[], by simp, by simp⟩, by simp, fun k hk => hk⟩
  | cons id rest ihP =>
    intro pre graph order used deferred hG hU hnp hreg
    by_cases hc : (lookupKey used id).isSome
    · have hidr : lookupKey used id = some .ready := by
        match hq : lookupKey used id with
        | some .ready => rfl
        | some .pending => exact absurd hq (hnp id)
        | none => rw [hq] at hc; simp at hc
      have hres : topoRound (id :: rest) graph order used deferred =
          topoRound rest graph order used deferred := by
        simp [topoRound, hc]
      rw [hres]
      have hmain := ihP pre graph order used deferred hG hU hnp
        (fun i hi => hreg i (List.mem_cons_of_mem _ hi))
      match hr2 : topoRound rest graph order used deferred with
      | .err e => rw [hr2] at hmain; exact hmain
      | .outOfFuel => rw [hr2] at hmain; exact hmain
      | .ok order' used' deferred' =>
        rw [hr2] at hmain
        obtain ⟨hU', hnp', hdelta, hdd, hPmem, hrle⟩ := hmain
        refine ⟨hU', hnp', hdelta, ?_, ?_, hrle⟩
        · obtain ⟨dd, h1, h2⟩ := hdd
          exact ⟨dd, h1, fun i hi =>
            ⟨List.mem_cons_of_mem _ (h2 i hi).1, (h2 i hi).2.1, (h2 i hi).2.2⟩⟩
        · intro i hi
          rcases List.mem_cons.mp hi with he | hm
          · subst he
            exact Or.inl (hrle i hidr)
          · exact hPmem i hm
    · have hidnone : lookupKey used id = none := by
        match hq : lookupKey used id with
        | none => rfl
        | some s => rw [hq] at hc; simp at hc
      have hfuel : countNonPending graph used < graph.length + 1 :=
        Nat.lt_succ_of_le (countNonPending_le graph used)
      have hreach : ∀ k, lookupKey used k = some .pending →
          Relation.TransGen (edgeOf graph) k id :=
        fun k hk => absurd hk (hnp k)
      have hSpec := topoSort_spec (graph.length + 1) id pre graph order used hG hU
        hidnone hfuel hreach
      match hts : topoSort (graph.length + 1) id graph order used with
      | .outOfFuel =>
        rw [hts] at hSpec
        exact hSpec.elim
      | .err e =>
        rw [hts] at hSpec
        have hres : topoRound (id :: rest) graph order used deferred = .err e := by
          simp [topoRound, hc, hts]
        rw [hres]
        exact hSpec
      | .ok true order₁ used₁ =>
        rw [hts] at hSpec
        obtain ⟨hU₁, hdelta₁, hpend₁, hrle₁, hidr₁⟩ := hSpec
        have hres : topoRound (id :: rest) graph order used deferred =
            topoRound rest graph order₁ used₁ deferred := by
          simp [topoRound, hc, hts]
        rw [hres]
        have hnp₁ : ∀ k, lookupKey used₁ k ≠ some .pending :=
          fun k hk => hnp k ((hpend₁ k).mp hk)
        have hmain := ihP pre graph order₁ used₁ deferred hG hU₁ hnp₁
          (fun i hi => hreg i (List.mem_cons_of_mem _ hi))
        match hr2 : topoRound rest graph order₁ used₁ deferred with
        | .err e => rw [hr2] at hmain; exact hmain
        | .outOfFuel => rw [hr2] at hmain; exact hmain
        | .ok order' used' deferred' =>
          rw [hr2] at hmain
          obtain ⟨hU', hnp', hdelta, hdd, hPmem, hrle⟩ := hmain
          refine ⟨hU', hnp', ?_, ?_, ?_, ?_⟩
          · obtain ⟨δ1, h1⟩ := hdelta₁
            obtain ⟨δ2, h2⟩ := hdelta
            exact ⟨δ1 ++ δ2, by rw [h2, h1, List.append_assoc]⟩
          · obtain ⟨dd, h1, h2⟩ := hdd
            exact ⟨dd, h1, fun i hi =>
              ⟨List.mem_cons_of_mem _ (h2 i hi).1, (h2 i hi).2.1, (h2 i hi).2.2⟩⟩
          · intro i hi
            rcases List.mem_cons.mp hi with he | hm
            · subst he
              exact Or.inl (hrle i hidr₁)
            · exact hPmem i hm
          · intro k hk
            exact hrle k (hrle₁ k hk)
      | .ok false order₁ used₁ =>
        rw [hts] at hSpec
        obtain ⟨hU₁, hdelta₁, hpend₁, hrle₁, hidn₁, hra₁⟩ := hSpec
        have hres : topoRound (id :: rest) graph order used deferred =
            topoRound rest graph order₁ used₁ (deferred ++ [id]) := by
          simp [topoRound, hc, hts]
        rw [hres]
        have hnp₁ : ∀ k, lookupKey used₁ k ≠ some .pending :=
          fun k hk => hnp k ((hpend₁ k).mp hk)
        have hmain := ihP pre graph order₁ used₁ (deferred ++ [id]) hG hU₁ hnp₁
          (fun i hi => hreg i (List.mem_cons_of_mem _ hi))
        match hr2 : topoRound rest graph order₁ used₁ (deferred ++ [id]) with
        | .err e => rw [hr2] at hmain; exact hmain
        | .outOfFuel => rw [hr2] at hmain; exact hmain
        | .ok order' used' deferred' =>
          rw [hr2] at hmain
          obtain ⟨hU', hnp', hdelta, hdd, hPmem, hrle⟩ := hmain
          have hidnone' : lookupKey used' id = none := by
            match hq : lookupKey used' id with
            | none => rfl
            | some .pending => exact absurd hq (hnp' id)
            | some .ready =>
              exact absurd hra₁ (ready_not_reachesAbsent hU'.closed hU'.sub hq)
          refine ⟨hU', hnp', ?_, ?_, ?_, ?_⟩
          · obtain ⟨δ1, h1⟩ := hdelta₁
            obtain ⟨δ2, h2⟩ := hdelta
            exact ⟨δ1 ++ δ2, by rw [h2, h1, List.append_assoc]⟩
          · obtain ⟨dd, h1, h2⟩ := hdd
            refine ⟨[id] ++ dd, by rw [h1, List.append_assoc], ?_⟩
            intro i hi
            rcases List.mem_append.mp hi with hm | hm
            · rw [List.mem_singleton] at hm
              subst hm
              exact ⟨List.mem_cons_self _ _, hra₁, hidnone'⟩
            · exact ⟨List.mem_cons_of_mem _ (h2 i hm).1, (h2 i hm).2.1, (h2 i hm).2.2⟩
          · intro i hi
            rcases List.mem_cons.mp hi with he | hm
            · subst he
              refine Or.inr ?_
              obtain ⟨dd, h1, _⟩ := hdd
              rw [h1]
              simp
            · exact hPmem i hm
          · intro k hk
            exact hrle k (hrle₁ k hk)

theorem potSum_cons (a : Nat) (q : PluginDef) (t : List (Nat × PluginDef)) (P : Nat → Bool) :
    potSum ((a, q) :: t) P =
      (if P a = true then 1 + q.routine.potential else 0) + potSum t P := by
  unfold potSum
  by_cases hpa : P a = true
  · rw [List.filter_cons_of_pos (by simp [hpa]), if_pos hpa]
    simp
  · rw [List.filter_cons_of_neg (by simp [hpa]), if_neg hpa]
    simp

theorem potSum_congr_mem (t : List (Nat × PluginDef)) {P Q : Nat → Bool}
    (h : ∀ x ∈ t, P x.1 = Q x.1) : potSum t P = potSum t Q := by
  unfold potSum
  rw [List.filter_congr h]

theorem potSum_append (l₁ l₂ : List (Nat × PluginDef)) (P : Nat → Bool) :
    potSum (l₁ ++ l₂) P = potSum l₁ P + potSum l₂ P := by
  simp [potSum, List.filter_append]

theorem potSum_le_sum (l : List (Nat × PluginDef)) (P : Nat → Bool) :
    potSum l P ≤ (l.map (fun q => 1 + q.2.routine.potential)).sum := by
  apply List.Sublist.sum_le_sum
  · exact (List.filter_sublist _).map _
  · intro a _
    exact Nat.zero_le a

theorem potSum_extract (plugins : List (Nat × PluginDef)) {P Q : Nat → Bool} {id : Nat}
    {p : PluginDef}
    (hnd : (plugins.map Prod.fst).Nodup) (hlook : lookupKey plugins id = some p)
    (hQid : Q id = false) (hPid : P id = true)
    (hQP_ne : ∀ k, k ≠ id → Q k = P k) :
    potSum plugins Q + (1 + p.routine.potential) ≤ potSum plugins P := by
  induction plugins with
  | nil => simp [lookupKey] at hlook
  | cons hd t ihp =>
    obtain ⟨a, q⟩ := hd
    rw [List.map_cons, List.nodup_cons] at hnd
    rw [potSum_cons, potSum_cons]
    by_cases ha : a = id
    · subst ha
      simp only [lookupKey, if_pos rfl] at hlook
      injection hlook with hlook
      subst hlook
      rw [if_neg (by simp [hQid]), if_pos hPid]
      have hflt : potSum t Q = potSum t P := by
        apply potSum_congr_mem
        intro x hx
        apply hQP_ne
        intro he
        apply hnd.1
        rw [← he]
        exact List.mem_map.mpr ⟨x, hx, rfl⟩
      omega
    · simp only [lookupKey, if_neg ha] at hlook
      have hrec := ihp hnd.2 hlook
      rw [hQP_ne a ha]
      omega

theorem routineRun_extends (r : Routine) :
    ∀ b b', Routine.run r b = .ok b' →
      ∃ np, b'.plugins = b.plugins ++ np ∧
        b'.pending_plugins = b.pending_plugins ++ np.map Prod.fst ∧
        ((b.plugins.map Prod.fst).Nodup → (b'.plugins.map Prod.fst).Nodup) ∧
        (np.map (fun q => 1 + q.2.routine.potential)).sum ≤ r.potential := by
  induction r with
  | done =>
    intro b b' h
    simp [Routine.run] at h
    subst h
    exact ⟨[], by simp, by simp, fun x => x, by simp⟩
  | fail e =>
    intro b b' h
    simp [Routine.run] at h
  | addComponent kind val rest ihr =>
    intro b b' h
    simp only [Routine.run] at h
    match hc : b.add_component kind val with
    | none => simp only [hc] at h; cases h
    | some b₁ =>
      simp only [hc] at h
      have hb₁ : b₁.plugins = b.plugins ∧ b₁.pending_plugins = b.pending_plugins := by
        unfold AppBuilder.add_component at hc
        split at hc
        · cases hc
        · injection hc with hc
          subst hc
          exact ⟨rfl, rfl⟩
      obtain ⟨np, h1, h2, h3, h4⟩ := ihr b₁ b' h
      refine ⟨np, by rw [h1, hb₁.1], by rw [h2, hb₁.2], ?_, ?_⟩
      · intro hnd
        apply h3
        rw [hb₁.1]
        exact hnd
      · simpa [Routine.potential] using h4
  | addPlugin id deps sub rest ihs ihr =>
    intro b b' h
    simp only [Routine.run] at h
    match hc : b.add_plugin id ⟨deps, sub⟩ with
    | none => simp only [hc] at h; cases h
    | some b₁ =>
      simp only [hc] at h
      have hguard : ¬(lookupKey b.plugins id).isSome = true := by
        intro hg
        unfold AppBuilder.add_plugin at hc
        rw [if_pos hg] at hc
        cases hc
      have hb₁ : b₁ = ⟨b.components, b.plugins ++ [(id, ⟨deps, sub⟩)],
          b.pending_plugins ++ [id]⟩ := by
        unfold AppBuilder.add_plugin at hc
        rw [if_neg hguard] at hc
        injection hc with hc
        exact hc.symm
      subst hb₁
      obtain ⟨np, h1, h2, h3, h4⟩ := ihr _ b' h
      refine ⟨(id, PluginDef.mk deps sub) :: np, ?_, ?_, ?_, ?_⟩
      · rw [h1]
        simp
      · rw [h2]
        simp
      · intro hnd
        apply h3
        show ((b.plugins ++ [(id, PluginDef.mk deps sub)]).map Prod.fst).Nodup
        rw [List.map_append, List.nodup_append]
        refine ⟨hnd, by simp, ?_⟩
        intro x hx hx'
        simp at hx'
        subst hx'
        exact hguard ((mem_keys_iff_lookup _ _).mp hx)
      · simp only [List.map_cons, List.sum_cons, Routine.potential]
        omega

theorem runOrder_potential (ids : List Nat) :
    ∀ b log b' log' (P : Nat → Bool),
      runOrder ids b log = .ok b' log' →
      ids.Nodup →
      (∀ id ∈ ids, P id = true) →
      (b.plugins.map Prod.fst).Nodup →
      (∀ id ∈ ids, (lookupKey b.plugins id).isSome) →
      potSum b'.plugins (fun k => P k && decide (k ∉ ids)) + ids.length ≤
        potSum b.plugins P ∧
      log' = log ++ ids ∧
      (b'.plugins.map Prod.fst).Nodup ∧
      (∃ np, b'.plugins = b.plugins ++ np ∧
        b'.pending_plugins = b.pending_plugins ++ np.map Prod.fst) := by
  induction ids with
  | nil =>
    intro b log b' log' P h _ _ hnd _
    simp [runOrder] at h
    obtain ⟨hb, hl⟩ := h
    subst hb
    subst hl
    refine ⟨?_, by simp, hnd, ⟨[], by simp, by simp⟩⟩
    have he : potSum b.plugins (fun k => P k && decide (k ∉ ([] : List Nat))) =
        potSum b.plugins P :=
      potSum_congr_mem _ (fun x _ => by simp)
    simp only [List.length_nil]
    omega
  | cons id rest ihids =>
    intro b log b' log' P h hnodup hP hnd hreg
    rw [List.nodup_cons] at hnodup
    simp only [runOrder] at h
    match ha : lookupKey b.plugins id with
    | none => simp only [ha] at h; cases h
    | some p =>
      simp only [ha] at h
      match hq : p.routine.run b with
      | .err e => simp only [hq] at h; cases h
      | .panicked => simp only [hq] at h; cases h
      | .ok b₁ =>
        simp only [hq] at h
        obtain ⟨np₀, hp1, hp2, hp3, hp4⟩ := routineRun_extends _ _ _ hq
        have hnd₁ : (b₁.plugins.map Prod.fst).Nodup := hp3 hnd
        have hreg₁ : ∀ i ∈ rest, (lookupKey b₁.plugins i).isSome := by
          intro i hi
          have hil := hreg i (List.mem_cons_of_mem _ hi)
          match hl : lookupKey b.plugins i with
          | some v =>
            rw [hp1, lookupKey_append_of_some _ hl]
            simp
          | none =>
            rw [hl] at hil
            simp at hil
        have hrestP : ∀ i ∈ rest, (P i && decide (i ≠ id)) = true := by
          intro i hi
          have hP' := hP i (List.mem_cons_of_mem _ hi)
          have hne : i ≠ id := by
            intro he
            subst he
            exact hnodup.1 hi
          simp [hP', hne]
        obtain ⟨hpot, hlog, hnd', hext⟩ :=
          ihids b₁ (log ++ [id]) b' log' (fun k => P k && decide (k ≠ id)) h
            hnodup.2 hrestP hnd₁ hreg₁
        refine ⟨?_, by rw [hlog]; simp, hnd', ?_⟩
        · have e1 : potSum b'.plugins (fun k => P k && decide (k ∉ (id :: rest))) =
              potSum b'.plugins (fun k => (P k && decide (k ≠ id)) && decide (k ∉ rest)) := by
            apply potSum_congr_mem
            intro x _
            simp [List.mem_cons, not_or, Bool.and_assoc]
          have e2 : potSum b₁.plugins (fun k => P k && decide (k ≠ id)) ≤
              potSum b.plugins (fun k => P k && decide (k ≠ id)) + p.routine.potential := by
            rw [hp1, potSum_append]
            have hb := le_trans (potSum_le_sum np₀ (fun k => P k && decide (k ≠ id))) hp4
            omega
          have e3 : potSum b.plugins (fun k => P k && decide (k ≠ id)) +
              (1 + p.routine.potential) ≤ potSum b.plugins P := by
            apply potSum_extract b.plugins hnd ha
            · simp
            · exact hP id (List.mem_cons_self _ _)
            · intro k hk
              simp [hk]
          rw [e1]
          simp only [List.length_cons]
          omega
        · obtain ⟨np', hq1, hq2⟩ := hext
          refine ⟨np₀ ++ np', ?_, ?_⟩
          · rw [hq1, hp1, List.append_assoc]
          · rw [hq2, hp2, List.map_append, List.append_assoc]

theorem runOrder_static (ids : List Nat) :
    ∀ b log, (∀ id ∈ ids, ∃ p, lookupKey b.plugins id = some p ∧ p.routine = .done) →
      runOrder ids b log = .ok b (log ++ ids) := by
  induction ids with
  | nil => intro b log _; simp [runOrder]
  | cons id rest ihids =>
    intro b log hstatic
    obtain ⟨p, hp, hr⟩ := hstatic id (List.mem_cons_self _ _)
    simp only [runOrder, hp, hr, Routine.run]
    rw [ihids b (log ++ [id]) (fun i hi => hstatic i (List.mem_cons_of_mem _ hi))]
    simp

theorem round_setup (b : AppBuilder) (graph : List (Nat × List Nat))
    (used : List (Nat × DependencyStatus)) (log : List Nat)
    (hinv : BuildInv b graph used log) :
    ∃ graph₁, insertGraph b.pending_plugins b.plugins graph = some graph₁ ∧
      (graph₁.map Prod.fst).Nodup ∧
      (∀ k ds, lookupKey graph₁ k = some ds →
        ∃ p, lookupKey b.plugins k = some p ∧ p.deps = ds) ∧
      UsedState graph₁ log used ∧
      (∀ id ∈ b.pending_plugins, (lookupKey graph₁ id).isSome) ∧
      (∀ k, (lookupKey graph₁ k).isSome →
        (lookupKey graph k).isSome ∨ k ∈ b.pending_plugins) ∧
      (∀ k ∈ b.pending_plugins,
        ∃ p, lookupKey b.plugins k = some p ∧ lookupKey graph₁ k = some p.deps) ∧
      (∀ k, k ∉ b.pending_plugins → lookupKey graph₁ k = lookupKey graph k) := by
  have htot := insertGraph_total b.pending_plugins b.plugins graph hinv.pendingReg
  match hins : insertGraph b.pending_plugins b.plugins graph with
  | none => rw [hins] at htot; simp at htot
  | some graph₁ =>
    obtain ⟨hg1, hg2, hg3, hg4⟩ := insertGraph_spec _ _ _ _ hins
    have hGnd : (graph₁.map Prod.fst).Nodup := hg3 hinv.gNodup
    have hgraphPlug₁ : ∀ k ds, lookupKey graph₁ k = some ds →
        ∃ p, lookupKey b.plugins k = some p ∧ p.deps = ds := by
      intro k ds hk
      by_cases hkP : k ∈ b.pending_plugins
      · obtain ⟨p, hp', hg'⟩ := hg2 k hkP
        rw [hk] at hg'
        injection hg' with hg'
        exact ⟨p, hp', hg'.symm⟩
      · rw [hg1 k hkP] at hk
        exact hinv.graphPlugins k ds hk
    have hlogSame : ∀ id ∈ log, lookupKey graph₁ id = lookupKey graph id := by
      intro i hi
      apply hg1
      intro hiP
      have hf := hinv.pendingFresh i hiP
      have h2 := (hinv.state.inv i).mpr hi
      rw [hf] at h2
      cases h2
    have hU₁ : UsedState graph₁ log used := by
      refine ⟨hinv.state.inv, ?_, ?_, ?_, hinv.state.nodup⟩
      · intro k hk
        have hgk := hinv.state.sub k hk
        by_cases hkP : k ∈ b.pending_plugins
        · obtain ⟨p, _, hgp⟩ := hg2 k hkP
          simp [hgp]
        · rw [hg1 k hkP]
          exact hgk
      · intro k hk
        obtain ⟨ds, hgk, hds⟩ := hinv.state.closed k hk
        refine ⟨ds, ?_, hds⟩
        rw [hlogSame k ((hinv.state.inv k).mp hk)]
        exact hgk
      · exact orderedFrom_graph_congr graph graph₁ log [] hlogSame hinv.state.ordered
    have hPin₁ : ∀ id ∈ b.pending_plugins, (lookupKey graph₁ id).isSome := by
      intro i hi
      obtain ⟨p, _, hgp⟩ := hg2 i hi
      simp [hgp]
    exact ⟨graph₁, rfl, hGnd, hgraphPlug₁, hU₁, hPin₁, hg4, hg2, hg1⟩

theorem buildLoop_spec (fuel : Nat) :
    ∀ b graph used log,
      BuildInv b graph used log →
      buildPotential b.plugins used < fuel →
      match buildLoop fuel b graph used log with
      | .outOfFuel => False
      | .panicked => True
      | .ok _ _ log' graph' =>
          orderedFrom graph' [] log' ∧ log'.Nodup ∧
          (∀ k, (lookupKey graph' k).isSome ↔ k ∈ log')
      | .err e log' graph' =>
          (e = .circularDependency → cyclicGraph graph') ∧
          (e = .missingDependency → ¬closedGraph graph') := by
  induction fuel with
  | zero =>
    intro b graph used log _ hpot
    exact absurd hpot (by omega)
  | succ fuel ihf =>
    intro b graph used log hinv hpot
    by_cases hp : b.pending_plugins = []
    · have hres : buildLoop (fuel + 1) b graph used log =
          .ok ⟨b.components⟩ ⟨[], [], []⟩ log graph := by
        simp [buildLoop, hp]
      rw [hres]
      refine ⟨hinv.state.ordered, hinv.state.nodup, ?_⟩
      intro k
      constructor
      · intro hk
        rcases hinv.coverage k hk with h | h
        · exact h
        · rw [hp] at h
          cases h
      · intro hk
        exact hinv.state.sub k (by rw [(hinv.state.inv k).mpr hk]; simp)
    · obtain ⟨graph₁, hins, hGnd, hgraphPlug₁, hU₁, hPin₁, hg4, hg2, hg1⟩ :=
        round_setup b graph used log hinv
      have hround := topoRound_spec b.pending_plugins log graph₁ [] used [] hGnd
        (by simpa using hU₁) hinv.noPend hPin₁
      match htr : topoRound b.pending_plugins graph₁ [] used [] with
      | .err e =>
        rw [htr] at hround
        have hres : buildLoop (fuel + 1) b graph used log = .err e log graph₁ := by
          simp [buildLoop, hp, hins, htr]
        rw [hres]
        refine ⟨fun _ => hround.2, fun he => ?_⟩
        rw [hround.1] at he
        cases he
      | .outOfFuel =>
        rw [htr] at hround
        exact hround.elim
      | .ok order used₁ deferred =>
        rw [htr] at hround
        obtain ⟨hU', hnp', ⟨order, horder⟩, ⟨deferred, hdeferred1, hdeferred2⟩, hPmem, hrle⟩ := hround
        simp only [List.nil_append] at horder hdeferred1
        subst horder
        subst hdeferred1
        by_cases ho : order = []
        · subst ho
          have hres : buildLoop (fuel + 1) b graph used log =
              .err .missingDependency log graph₁ := by
            simp [buildLoop, hp, hins, htr]
          rw [hres]
          show (AppError.missingDependency = AppError.circularDependency →
              cyclicGraph graph₁) ∧
            (AppError.missingDependency = AppError.missingDependency → ¬closedGraph graph₁)
          refine ⟨(fun he => nomatch he), fun _ => ?_⟩
          obtain ⟨id₀, hid₀⟩ := List.exists_mem_of_ne_nil _ hp
          have hnotready : lookupKey used₁ id₀ ≠ some .ready := by
            intro hr
            have hmem := (hU'.inv id₀).mp hr
            rw [List.append_nil] at hmem
            have := (hinv.state.inv id₀).mpr hmem
            rw [hinv.pendingFresh id₀ hid₀] at this
            cases this
          have hdef : id₀ ∈ deferred := by
            rcases hPmem id₀ hid₀ with h | h
            · exact absurd h hnotready
            · exact h
          obtain ⟨_, hra, _⟩ := hdeferred2 id₀ hdef
          intro hcl
          obtain ⟨k, ds, d, hk, hd, hdnone⟩ :=
            reachesAbsent_witness hra (hPin₁ id₀ hid₀)
          have := hcl k ds hk d hd
          rw [hdnone] at this
          simp at this
        · have hordNodup : order.Nodup := by
            have := hU'.nodup
            rw [List.nodup_append] at this
            exact this.2.1
          have hordNotReady : ∀ id ∈ order, lookupKey used id ≠ some .ready := by
            intro i hi hr
            have hmemlog := (hinv.state.inv i).mp hr
            have := hU'.nodup
            rw [List.nodup_append] at this
            exact this.2.2 hmemlog hi
          have hordReady₁ : ∀ id ∈ order, lookupKey used₁ id = some .ready := by
            intro i hi
            exact (hU'.inv i).mpr (List.mem_append.mpr (Or.inr hi))
          have hordPlug : ∀ id ∈ order, (lookupKey b.plugins id).isSome := by
            intro i hi
            have hg := hU'.sub i (by rw [hordReady₁ i hi]; simp)
            obtain ⟨ds, hds⟩ := Option.isSome_iff_exists.mp hg
            obtain ⟨p, hp', _⟩ := hgraphPlug₁ i ds hds
            simp [hp']
          have hres : buildLoop (fuel + 1) b graph used log =
              match runOrder order { b with pending_plugins := deferred } log with
              | .panicked => .panicked
              | .err e log' => .err (.pluginError e) log' graph₁
              | .ok b₂ log₂ => buildLoop fuel b₂ graph₁ used₁ log₂ := by
            simp [buildLoop, hp, hins, htr, ho]
          rw [hres]
          match hexec : runOrder order { b with pending_plugins := deferred } log with
          | .panicked => trivial
          | .err e log' =>
            show (AppError.pluginError e = AppError.circularDependency → cyclicGraph graph₁) ∧
              (AppError.pluginError e = AppError.missingDependency → ¬closedGraph graph₁)
            exact ⟨(fun he => nomatch he), (fun he => nomatch he)⟩
          | .ok b₂ log₂ =>
            have hP : ∀ id ∈ order, decide (lookupKey used id ≠ some DependencyStatus.ready) =
                true := by
              intro i hi
              simp [hordNotReady i hi]
            obtain ⟨hpot₂, hlog₂, hnd₂, np, hnp1, hnp2⟩ :=
              runOrder_potential order { b with pending_plugins := deferred } log b₂ log₂
                (fun k => decide (lookupKey used k ≠ some DependencyStatus.ready)) hexec
                hordNodup hP hinv.pNodup hordPlug
            have hnpfresh : ∀ k ∈ np.map Prod.fst, lookupKey b.plugins k = none := by
              intro k hk
              have := hnd₂
              rw [hnp1, List.map_append, List.nodup_append] at this
              have hdisj := this.2.2
              match hq : lookupKey b.plugins k with
              | none => rfl
              | some p =>
                exact absurd hk (hdisj ((mem_keys_iff_lookup _ k).mpr (by simp [hq])))
            have hinv₂ : BuildInv b₂ graph₁ used₁ log₂ := by
              refine ⟨hGnd, hnd₂, ?_, ?_, ?_, hnp', ?_, ?_⟩
              · intro k ds hk
                obtain ⟨p, hp', hd'⟩ := hgraphPlug₁ k ds hk
                exact ⟨p, by rw [hnp1]; exact lookupKey_append_of_some _ hp', hd'⟩
              · intro i hi
                rw [hnp2] at hi
                rcases List.mem_append.mp hi with hm | hm
                · have := hinv.pendingReg i (by
                    have hdm : i ∈ deferred := hm
                    have : deferred = deferred := rfl
                    rw [this] at hdm
                    exact (hdeferred2 i hdm).1)
                  rw [hnp1]
                  match hq : lookupKey b.plugins i with
                  | some p => rw [lookupKey_append_of_some _ hq]; simp
                  | none => rw [hq] at this; simp at this
                · rw [hnp1]
                  rw [← mem_keys_iff_lookup]
                  rw [List.map_append]
                  exact List.mem_append.mpr (Or.inr hm)
              · rw [hlog₂]
                exact hU'
              · intro i hi
                rw [hnp2] at hi
                rcases List.mem_append.mp hi with hm | hm
                · have hdm : i ∈ deferred := hm
                  exact (hdeferred2 i hdm).2.2
                · match hq : lookupKey used₁ i with
                  | none => rfl
                  | some s =>
                    have hgs := hU'.sub i (by simp [hq])
                    obtain ⟨ds, hds⟩ := Option.isSome_iff_exists.mp hgs
                    obtain ⟨p, hp', _⟩ := hgraphPlug₁ i ds hds
                    rw [hnpfresh i hm] at hp'
                    cases hp'
              · intro k hk
                rcases hg4 k hk with hg | hg
                · rcases hinv.coverage k hg with h | h
                  · rw [hlog₂]
                    exact Or.inl (List.mem_append.mpr (Or.inl h))
                  · rcases hPmem k h with hr | hr
                    · rw [hlog₂]
                      exact Or.inl ((hU'.inv k).mp hr)
                    · rw [hnp2]
                      exact Or.inr (List.mem_append.mpr (Or.inl hr))
                · rcases hPmem k hg with hr | hr
                  · rw [hlog₂]
                    exact Or.inl ((hU'.inv k).mp hr)
                  · rw [hnp2]
                    exact Or.inr (List.mem_append.mpr (Or.inl hr))
            have hready_iff : ∀ k, lookupKey used₁ k = some .ready ↔
                (lookupKey used k = some .ready ∨ k ∈ order) := by
              intro k
              rw [hU'.inv k, hinv.state.inv k, List.mem_append]
            have hpred : ∀ x : Nat × PluginDef,
                (decide (lookupKey used₁ x.1 ≠ some DependencyStatus.ready)) =
                ((decide (lookupKey used x.1 ≠ some DependencyStatus.ready)) &&
                  decide (x.1 ∉ order)) := by
              intro x
              have h1 : (lookupKey used₁ x.1 ≠ some DependencyStatus.ready) ↔
                  ((lookupKey used x.1 ≠ some DependencyStatus.ready) ∧ x.1 ∉ order) := by
                simp only [ne_eq, hready_iff x.1, not_or]
              have h2 : (decide (lookupKey used₁ x.1 ≠ some DependencyStatus.ready)) =
                  decide ((lookupKey used x.1 ≠ some DependencyStatus.ready) ∧ x.1 ∉ order) :=
                decide_eq_decide.mpr h1
              rw [h2]
              simp
            have hpot₂' : buildPotential b₂.plugins used₁ < fuel := by
              have heq : buildPotential b₂.plugins used₁ =
                  potSum b₂.plugins
                    (fun k => decide (lookupKey used k ≠ some DependencyStatus.ready) &&
                      decide (k ∉ order)) := by
                unfold buildPotential potSum
                rw [List.filter_congr (fun x _ => hpred x)]
              have hlen : 0 < order.length := List.length_pos.mpr ho
              have hbp : buildPotential b.plugins used = potSum b.plugins
                  (fun k => decide (lookupKey used k ≠ some DependencyStatus.ready)) := rfl
              have hpot₂x : potSum b₂.plugins
                  (fun k => decide (lookupKey used k ≠ some DependencyStatus.ready) &&
                    decide (k ∉ order)) + order.length ≤
                  potSum b.plugins
                    (fun k => decide (lookupKey used k ≠ some DependencyStatus.ready)) := hpot₂
              rw [heq]
              rw [hbp] at hpot
              omega
            have := ihf b₂ graph₁ used₁ log₂ hinv₂ hpot₂'
            exact this

theorem orderedFrom_decomp (graph : List (Nat × List Nat)) (o₁ : List Nat) (a : Nat)
    (o₂ : List Nat) (s : List Nat) (h : orderedFrom graph s (o₁ ++ a :: o₂)) :
    ∀ d ∈ (lookupKey graph a).getD [], d ∈ s ++ o₁ := by
  rw [orderedFrom_append_iff] at h
  exact h.2.1

theorem indexOf_lt_of_edge (graph : List (Nat × List Nat)) (order : List Nat)
    (hord : orderedFrom graph [] order) (hnd : order.Nodup)
    {a b : Nat} (hab : edgeOf graph a b) (ha : a ∈ order) (hb : b ∈ order) :
    order.indexOf b < order.indexOf a := by
  obtain ⟨l₁, l₂, hsplit⟩ := List.append_of_mem ha
  subst hsplit
  have hnotmem : a ∉ l₁ := by
    intro hm
    exact (List.nodup_append.mp hnd).2.2 hm (List.mem_cons_self _ _)
  have hbl₁ : b ∈ l₁ := by
    have hdeps := orderedFrom_decomp graph l₁ a l₂ [] hord
    obtain ⟨ds, hds, hmem⟩ := hab
    have := hdeps b (by rw [hds]; simpa using hmem)
    simpa using this
  rw [List.indexOf_append_of_mem hbl₁, List.indexOf_append_of_not_mem hnotmem]
  have hblt : l₁.indexOf b < l₁.length := List.indexOf_lt_length.mpr hbl₁
  omega

theorem indexOf_lt_of_transGen (graph : List (Nat × List Nat)) (order : List Nat)
    (hord : orderedFrom graph [] order) (hnd : order.Nodup)
    (hcomp : ∀ k, (lookupKey graph k).isSome → k ∈ order) :
    ∀ a b, Relation.TransGen (edgeOf graph) a b → b ∈ order →
      order.indexOf b < order.indexOf a := by
  intro a b h
  induction h with
  | single hab =>
    intro hb
    have hcopy := hab
    obtain ⟨ds, hds, _⟩ := hcopy
    exact indexOf_lt_of_edge graph order hord hnd hab (hcomp a (by simp [hds])) hb
  | @tail m c hab hbc ih =>
    intro hc
    have hcopy := hbc
    obtain ⟨ds, hds, _⟩ := hcopy
    have hbmem : m ∈ order := hcomp m (by simp [hds])
    exact lt_trans (indexOf_lt_of_edge graph order hord hnd hbc hbmem hc) (ih hbmem)

theorem ordered_complete_no_cycle (graph : List (Nat × List Nat)) (order : List Nat)
    (hord : orderedFrom graph [] order) (hnd : order.Nodup)
    (hcomp : ∀ k, (lookupKey graph k).isSome → k ∈ order) :
    ¬cyclicGraph graph := by
  rintro ⟨z, hz⟩
  obtain ⟨w, hzw, _⟩ := Relation.TransGen.head'_iff.mp hz
  obtain ⟨ds, hds, _⟩ := hzw
  have hzmem : z ∈ order := hcomp z (by simp [hds])
  exact lt_irrefl _ (indexOf_lt_of_transGen graph order hord hnd hcomp z z hz hzmem)

theorem wfStart_buildInv (b : AppBuilder) (h : wfStart b) : BuildInv b [] [] [] := by
  obtain ⟨hpend, hnd, _⟩ := h
  refine ⟨by simp, hnd, ?_, ?_, ?_, ?_, ?_, ?_⟩
  · intro k ds hk
    simp [lookupKey] at hk
  · intro id hid
    rw [hpend] at hid
    rw [← mem_keys_iff_lookup]
    exact hid
  · exact ⟨fun k => by simp [lookupKey], fun k hk => by simp [lookupKey] at hk,
      fun k hk => by simp [lookupKey] at hk, trivial, by simp⟩
  · intro k
    simp [lookupKey]
  · intro id _
    rfl
  · intro k hk
    simp [lookupKey] at hk

theorem buildPotential_lt_buildFuel (b : AppBuilder) :
    buildPotential b.plugins [] < buildFuel b := by
  have hfe : b.plugins.filter
      (fun p => decide (lookupKey ([] : List (Nat × DependencyStatus)) p.1 ≠
        some DependencyStatus.ready)) = b.plugins :=
    List.filter_eq_self.mpr (fun a _ => by simp [lookupKey])
  unfold buildPotential buildFuel
  rw [hfe]
  omega

/-- C3: a successful `build()` executes the registered build routines in a
valid topological order of the dependency graph as it exists at termination:
the executed log respects every dependency edge (each identity runs strictly
after all of its dependencies), contains no duplicates, and covers exactly
the graph's identities.  Conversely, when the terminal graph is closed and
acyclic the build cannot fail with `CircularDependency` or
`MissingDependency` (only a routine's own reported error remains possible),
and the round loop never exhausts its bound.  The concrete clause runs
P1 (no deps), P2 (deps P1), P3 (deps P2) registered in order [P3, P2, P1]
and obtains the executed order [P1, P2, P3]. -/
theorem claim_C3_theorem :
    (∀ b app b' log graph, wfStart b →
      AppBuilder.build b = .ok app b' log graph →
      orderedFrom graph [] log ∧ log.Nodup ∧
      (∀ k, (lookupKey graph k).isSome ↔ k ∈ log)) ∧
    (∀ b e log graph, wfStart b →
      AppBuilder.build b = .err e log graph →
      closedGraph graph → ¬cyclicGraph graph → ∃ e', e = .pluginError e') ∧
    (∀ b, wfStart b → AppBuilder.build b ≠ .outOfFuel) ∧
    AppBuilder.build ⟨[], [(3, ⟨[2], .done⟩), (2, ⟨[1], .done⟩), (1, ⟨[], .done⟩)], [3, 2, 1]⟩ =
      .ok ⟨[]⟩ ⟨[], [], []⟩ [1, 2, 3] [(3, [2]), (2, [1]), (1, [])] := by
  refine ⟨?_, ?_, ?_, by decide⟩
  · intro b app b' log graph hwf hok
    have hspec := buildLoop_spec (buildFuel b) b [] [] []
      (wfStart_buildInv b hwf) (buildPotential_lt_buildFuel b)
    rw [show buildLoop (buildFuel b) b [] [] [] = AppBuilder.build b from rfl, hok] at hspec
    exact hspec
  · intro b e log graph hwf herr hclosed hacyc
    have hspec := buildLoop_spec (buildFuel b) b [] [] []
      (wfStart_buildInv b hwf) (buildPotential_lt_buildFuel b)
    rw [show buildLoop (buildFuel b) b [] [] [] = AppBuilder.build b from rfl, herr] at hspec
    match e with
    | .circularDependency => exact absurd (hspec.1 rfl) hacyc
    | .missingDependency => exact absurd hclosed (hspec.2 rfl)
    | .pluginError e' => exact ⟨e', rfl⟩
  · intro b hwf hcontra
    have hspec := buildLoop_spec (buildFuel b) b [] [] []
      (wfStart_buildInv b hwf) (buildPotential_lt_buildFuel b)
    rw [show buildLoop (buildFuel b) b [] [] [] = AppBuilder.build b from rfl, hcontra] at hspec
    exact hspec

/-- C3 witness: instantiations of `claim_C3_theorem` at the concrete
three-plugin chain (success clause and termination clause) and at a builder
whose only plugin's routine reports error 5 (error-classification clause). -/
theorem claim_C3_witness :
    (orderedFrom [(3, [2]), (2, [1]), (1, [])] [] [1, 2, 3] ∧
      ([1, 2, 3] : List Nat).Nodup ∧
      ((lookupKey [(3, [2]), (2, [1]), (1, [])] 1).isSome ↔ 1 ∈ ([1, 2, 3] : List Nat))) ∧
    (∃ e', AppError.pluginError 5 = AppError.pluginError e') ∧
    AppBuilder.build ⟨[], [(3, ⟨[2], .done⟩), (2, ⟨[1], .done⟩), (1, ⟨[], .done⟩)], [3, 2, 1]⟩ ≠
      .outOfFuel := by
  have hwf3 : wfStart ⟨[], [(3, ⟨[2], .done⟩), (2, ⟨[1], .done⟩), (1, ⟨[], .done⟩)], [3, 2, 1]⟩ := by
    refine ⟨?_, ?_, ?_⟩ <;> decide
  have h1 := (claim_C3_theorem).1 _ ⟨[]⟩ ⟨[], [], []⟩ [1, 2, 3]
    [(3, [2]), (2, [1]), (1, [])] hwf3 (by decide)
  refine ⟨⟨h1.1, h1.2.1, h1.2.2 1⟩, ?_, (claim_C3_theorem).2.2.1 _ hwf3⟩
  have hwf7 : wfStart ⟨[], [(7, ⟨[], .fail 5⟩)], [7]⟩ := by
    refine ⟨?_, ?_, ?_⟩ <;> decide
  have hclosed : closedGraph [(7, [])] := by
    intro k ds hk d hd
    simp only [lookupKey] at hk
    split at hk
    · injection hk with hk
      subst hk
      cases hd
    · cases hk
  have hacyc : ¬cyclicGraph [(7, [])] := by
    rintro ⟨z, hz⟩
    have hedge : ∀ x y, ¬edgeOf [(7, [])] x y := by
      rintro x y ⟨ds, hds, hmem⟩
      simp only [lookupKey] at hds
      split at hds
      · injection hds with hds
        subst hds
        cases hmem
      · cases hds
    cases hz with
    | single h => exact hedge _ _ h
    | tail _ h => exact hedge _ _ h
  exact (claim_C3_theorem).2.1 _ (.pluginError 5) [7] [(7, [])] hwf7 (by decide)
    hclosed hacyc

theorem lookupKey_some_mem {α : Type} (l : List (Nat × α)) (k : Nat) (v : α)
    (h : lookupKey l k = some v) : (k, v) ∈ l := by
  induction l with
  | nil => simp [lookupKey] at h
  | cons hd t ih =>
    obtain ⟨a, b⟩ := hd
    by_cases hk : a = k
    · subst hk
      simp [lookupKey] at h
      subst h
      exact List.mem_cons_self _ _
    · simp [lookupKey, hk] at h
      exact List.mem_cons_of_mem _ (ih h)

/-- C5 (amended): when every declared dependency of every registered plugin
is itself registered and the routines are static, a dependency cycle among
the registered identities makes `build()` fail with `CircularDependency`:
the closed first-round graph mirrors the declared dependencies exactly, no
identity can be deferred, and the depth-first walk must revisit an
in-progress identity. -/
theorem claim_C5_theorem (b : AppBuilder) (hwf : wfStart b)
    (hclosed : closedBuilder b)
    (hcyc : ∃ z, Relation.TransGen (edgeOfBuilder b) z z) :
    ∃ log graph, AppBuilder.build b = .err .circularDependency log graph := by
  have hinv : BuildInv b [] [] [] := wfStart_buildInv b hwf
  obtain ⟨graph₁, hins, hGnd, hgraphPlug₁, hU₁, hPin₁, hg4, hg2, hg1⟩ :=
    round_setup b [] [] [] hinv
  obtain ⟨z, hz⟩ := hcyc
  obtain ⟨w, hzw, _⟩ := Relation.TransGen.head'_iff.mp hz
  obtain ⟨pz, hpz, _⟩ := hzw
  have hzP : z ∈ b.pending_plugins := by
    rw [hwf.1]
    exact (mem_keys_iff_lookup _ z).mpr (by simp [hpz])
  have hp : b.pending_plugins ≠ [] := fun he => by rw [he] at hzP; cases hzP
  have hedge : ∀ a d, edgeOfBuilder b a d → edgeOf graph₁ a d := by
    rintro a d ⟨p, hpa, hd⟩
    have haP : a ∈ b.pending_plugins := by
      rw [hwf.1]
      exact (mem_keys_iff_lookup _ a).mpr (by simp [hpa])
    obtain ⟨p', hpa', hga⟩ := hg2 a haP
    rw [hpa] at hpa'
    injection hpa' with hpa'
    subst hpa'
    exact ⟨p.deps, hga, hd⟩
  have hcycg : cyclicGraph graph₁ := ⟨z, Relation.TransGen.mono hedge hz⟩
  have hclg : closedGraph graph₁ := by
    intro k ds hk d hd
    obtain ⟨p, hpk, hdeps⟩ := hgraphPlug₁ k ds hk
    subst hdeps
    have hreg : (lookupKey b.plugins d).isSome :=
      hclosed (k, p) (lookupKey_some_mem _ _ _ hpk) d hd
    have hdP : d ∈ b.pending_plugins := by
      rw [hwf.1]
      exact (mem_keys_iff_lookup _ d).mpr hreg
    exact hPin₁ d hdP
  have hround := topoRound_spec b.pending_plugins [] graph₁ [] [] [] hGnd
    hU₁ hinv.noPend hPin₁
  match htr : topoRound b.pending_plugins graph₁ [] [] [] with
  | .outOfFuel =>
    rw [htr] at hround
    exact hround.elim
  | .ok order used₁ deferred =>
    rw [htr] at hround
    obtain ⟨hU', hnp', _, ⟨dd, hdd1, hdd2⟩, hPmem, hrle⟩ := hround
    have hcomp : ∀ k, (lookupKey graph₁ k).isSome → k ∈ order := by
      intro k hk
      rcases hg4 k hk with hs | hm
      · simp [lookupKey] at hs
      · rcases hPmem k hm with hr | hdefer
        · exact (hU'.inv k).mp hr
        · rw [hdd1] at hdefer
          rw [List.nil_append] at hdefer
          obtain ⟨hkP, hra, _⟩ := hdd2 k hdefer
          exact absurd hra (closed_not_reachesAbsent hclg (hPin₁ k hkP))
    exact absurd hcycg
      (ordered_complete_no_cycle graph₁ order hU'.ordered hU'.nodup hcomp)
  | .err e =>
    rw [htr] at hround
    refine ⟨[], graph₁, ?_⟩
    show buildLoop (buildFuel b) b [] [] [] = .err .circularDependency [] graph₁
    have hfe : buildFuel b = (b.plugins.map fun p => 1 + p.2.routine.potential).sum + 1 := rfl
    rw [hfe, ← hround.1]
    simp [buildLoop, hp, hins, htr]

/-- C5 counterexample: plugins 1 (deps [9, 2]) and 2 (deps [1]) form a
registered cycle 1 → 2 → 1, yet because identity 9 is never registered the
depth-first walk defers both identities on the absent dependency before it
can revisit an in-progress one, and `build()` fails with
`MissingDependency`, never `CircularDependency`. -/
theorem claim_C5_counterexample :
    Relation.TransGen
      (edgeOfBuilder ⟨[], [(1, ⟨[9, 2], .done⟩), (2, ⟨[1], .done⟩)], [1, 2]⟩) 1 1 ∧
    AppBuilder.build ⟨[], [(1, ⟨[9, 2], .done⟩), (2, ⟨[1], .done⟩)], [1, 2]⟩ =
      .err .missingDependency [] [(1, [9, 2]), (2, [1])] ∧
    ∀ log graph,
      AppBuilder.build ⟨[], [(1, ⟨[9, 2], .done⟩), (2, ⟨[1], .done⟩)], [1, 2]⟩ ≠
        .err .circularDependency log graph := by
  refine ⟨?_, by decide, ?_⟩
  · have e12 : edgeOfBuilder ⟨[], [(1, ⟨[9, 2], .done⟩), (2, ⟨[1], .done⟩)], [1, 2]⟩ 1 2 :=
      ⟨⟨[9, 2], .done⟩, rfl, by decide⟩
    have e21 : edgeOfBuilder ⟨[], [(1, ⟨[9, 2], .done⟩), (2, ⟨[1], .done⟩)], [1, 2]⟩ 2 1 :=
      ⟨⟨[1], .done⟩, rfl, by decide⟩
    exact Relation.TransGen.tail (Relation.TransGen.single e12) e21
  · intro log graph h
    rw [show AppBuilder.build ⟨[], [(1, ⟨[9, 2], .done⟩), (2, ⟨[1], .done⟩)], [1, 2]⟩ =
        .err .missingDependency [] [(1, [9, 2]), (2, [1])] from by decide] at h
    exact nomatch h

/-- C5 witness: `claim_C5_theorem` applied to the closed two-plugin cycle
1 → 2 → 1 with all dependencies registered. -/
theorem claim_C5_witness :
    ∃ log graph,
      AppBuilder.build ⟨[], [(1, ⟨[2], .done⟩), (2, ⟨[1], .done⟩)], [1, 2]⟩ =
        .err .circularDependency log graph := by
  have e12 : edgeOfBuilder ⟨[], [(1, ⟨[2], .done⟩), (2, ⟨[1], .done⟩)], [1, 2]⟩ 1 2 :=
    ⟨⟨[2], .done⟩, rfl, by decide⟩
  have e21 : edgeOfBuilder ⟨[], [(1, ⟨[2], .done⟩), (2, ⟨[1], .done⟩)], [1, 2]⟩ 2 1 :=
    ⟨⟨[1], .done⟩, rfl, by decide⟩
  exact claim_C5_theorem ⟨[], [(1, ⟨[2], .done⟩), (2, ⟨[1], .done⟩)], [1, 2]⟩
    (by refine ⟨?_, ?_, ?_⟩ <;> decide)
    (by simp only [closedBuilder]; decide)
    ⟨1, Relation.TransGen.tail (Relation.TransGen.single e12) e21⟩

/-- In the purely static setting (every registered routine is `.done`) the
build loop never panics, never exhausts its fuel, reports
`CircularDependency` only in the presence of an actual cycle among the
registered plugins' declared dependencies, never reports a plugin error,
and on success certifies that every declared dependency of every
registered plugin is itself registered. -/
theorem buildLoop_static (fuel : Nat) :
    ∀ b graph used log,
      BuildInv b graph used log →
      staticBuilder b →
      buildPotential b.plugins used < fuel →
      (∀ k p, lookupKey b.plugins k = some p →
        lookupKey graph k = some p.deps ∨ k ∈ b.pending_plugins) →
      match buildLoop fuel b graph used log with
      | .outOfFuel => False
      | .panicked => False
      | .ok _ _ _ _ => ∀ k p, lookupKey b.plugins k = some p →
          ∀ d ∈ p.deps, (lookupKey b.plugins d).isSome
      | .err e _ _ =>
          (e = .circularDependency →
            ∃ z, Relation.TransGen (edgeOfBuilder b) z z) ∧
          (∀ e', e ≠ .pluginError e') := by
  induction fuel with
  | zero =>
    intro b graph used log _ _ hpot _
    exact absurd hpot (by omega)
  | succ fuel ihf =>
    intro b graph used log hinv hstatic hpot hagree
    by_cases hp : b.pending_plugins = []
    · have hres : buildLoop (fuel + 1) b graph used log =
          .ok ⟨b.components⟩ ⟨[], [], []⟩ log graph := by
        simp [buildLoop, hp]
      rw [hres]
      intro k p hk d hd
      have hgk : lookupKey graph k = some p.deps := by
        rcases hagree k p hk with h | h
        · exact h
        · rw [hp] at h
          cases h
      have hklog : k ∈ log := by
        rcases hinv.coverage k (by simp [hgk]) with h | h
        · exact h
        · rw [hp] at h
          cases h
      have hkready := (hinv.state.inv k).mpr hklog
      obtain ⟨ds, hgk', hds⟩ := hinv.state.closed k hkready
      rw [hgk] at hgk'
      injection hgk' with hgk'
      have hdready := hds d (hgk' ▸ hd)
      have hgd : (lookupKey graph d).isSome := hinv.state.sub d (by simp [hdready])
      obtain ⟨ds', hds'⟩ := Option.isSome_iff_exists.mp hgd
      obtain ⟨pd, hpd, _⟩ := hinv.graphPlugins d ds' hds'
      simp [hpd]
    · obtain ⟨graph₁, hins, hGnd, hgraphPlug₁, hU₁, hPin₁, hg4, hg2, hg1⟩ :=
        round_setup b graph used log hinv
      have hround := topoRound_spec b.pending_plugins log graph₁ [] used [] hGnd
        (by simpa using hU₁) hinv.noPend hPin₁
      have hmono : ∀ a d, edgeOf graph₁ a d → edgeOfBuilder b a d := by
        rintro a d ⟨ds, hga, hd⟩
        obtain ⟨p, hpa, hdeps⟩ := hgraphPlug₁ a ds hga
        exact ⟨p, hpa, by rw [hdeps]; exact hd⟩
      match htr : topoRound b.pending_plugins graph₁ [] used [] with
      | .err e =>
        rw [htr] at hround
        have hres : buildLoop (fuel + 1) b graph used log = .err e log graph₁ := by
          simp [buildLoop, hp, hins, htr]
        rw [hres]
        refine ⟨fun _ => ?_, fun e' he => ?_⟩
        · obtain ⟨z, hz⟩ := hround.2
          exact ⟨z, Relation.TransGen.mono hmono hz⟩
        · rw [hround.1] at he
          cases he
      | .outOfFuel =>
        rw [htr] at hround
        exact hround.elim
      | .ok order used₁ deferred =>
        rw [htr] at hround
        obtain ⟨hU', hnp', ⟨order, horder⟩, ⟨deferred, hdeferred1, hdeferred2⟩, hPmem, hrle⟩ :=
          hround
        simp only [List.nil_append] at horder hdeferred1
        subst horder
        subst hdeferred1
        by_cases ho : order = []
        · subst ho
          have hres : buildLoop (fuel + 1) b graph used log =
              .err .missingDependency log graph₁ := by
            simp [buildLoop, hp, hins, htr]
          rw [hres]
          show (AppError.missingDependency = AppError.circularDependency →
              ∃ z, Relation.TransGen (edgeOfBuilder b) z z) ∧
            (∀ e', AppError.missingDependency ≠ AppError.pluginError e')
          exact ⟨(fun he => nomatch he), (fun e' he => nomatch he)⟩
        · have hordNodup : order.Nodup := by
            have := hU'.nodup
            rw [List.nodup_append] at this
            exact this.2.1
          have hordNotReady : ∀ id ∈ order, lookupKey used id ≠ some .ready := by
            intro i hi hr
            have hmemlog := (hinv.state.inv i).mp hr
            have := hU'.nodup
            rw [List.nodup_append] at this
            exact this.2.2 hmemlog hi
          have hordReady₁ : ∀ id ∈ order, lookupKey used₁ id = some .ready := by
            intro i hi
            exact (hU'.inv i).mpr (List.mem_append.mpr (Or.inr hi))
          have hordPlug : ∀ id ∈ order, (lookupKey b.plugins id).isSome := by
            intro i hi
            have hg := hU'.sub i (by rw [hordReady₁ i hi]; simp)
            obtain ⟨ds, hds⟩ := Option.isSome_iff_exists.mp hg
            obtain ⟨p, hp', _⟩ := hgraphPlug₁ i ds hds
            simp [hp']
          have hordStatic : ∀ id ∈ order, ∃ p,
              lookupKey (AppBuilder.plugins { b with pending_plugins := deferred }) id =
                some p ∧ p.routine = .done := by
            intro i hi
            obtain ⟨p, hp'⟩ := Option.isSome_iff_exists.mp (hordPlug i hi)
            exact ⟨p, hp', hstatic (i, p) (lookupKey_some_mem _ _ _ hp')⟩
          have hexec : runOrder order { b with pending_plugins := deferred } log =
              .ok { b with pending_plugins := deferred } (log ++ order) :=
            runOrder_static order _ log hordStatic
          have hres : buildLoop (fuel + 1) b graph used log =
              buildLoop fuel { b with pending_plugins := deferred } graph₁ used₁
                (log ++ order) := by
            simp [buildLoop, hp, hins, htr, ho, hexec]
          rw [hres]
          have hinv₂ : BuildInv { b with pending_plugins := deferred } graph₁ used₁
              (log ++ order) := by
            refine ⟨hGnd, hinv.pNodup, hgraphPlug₁, ?_, hU', hnp', ?_, ?_⟩
            · intro i hi
              exact hinv.pendingReg i (hdeferred2 i hi).1
            · intro i hi
              exact (hdeferred2 i hi).2.2
            · intro k hk
              have hcov : k ∈ log ∨ k ∈ b.pending_plugins := by
                rcases hg4 k hk with hs | hm
                · exact hinv.coverage k hs
                · exact Or.inr hm
              rcases hcov with hl | hm
              · exact Or.inl (List.mem_append.mpr (Or.inl hl))
              · rcases hPmem k hm with hr | hd'
                · exact Or.inl ((hU'.inv k).mp hr)
                · exact Or.inr hd'
          have hP : ∀ id ∈ order,
              decide (lookupKey used id ≠ some DependencyStatus.ready) = true := by
            intro i hi
            simp [hordNotReady i hi]
          obtain ⟨hpot₂, _, _, _⟩ :=
            runOrder_potential order { b with pending_plugins := deferred } log
              { b with pending_plugins := deferred } (log ++ order)
              (fun k => decide (lookupKey used k ≠ some DependencyStatus.ready)) hexec
              hordNodup hP hinv.pNodup hordPlug
          have hready_iff : ∀ k, lookupKey used₁ k = some .ready ↔
              (lookupKey used k = some .ready ∨ k ∈ order) := by
            intro k
            rw [hU'.inv k, hinv.state.inv k, List.mem_append]
          have hpred : ∀ x : Nat × PluginDef,
              (decide (lookupKey used₁ x.1 ≠ some DependencyStatus.ready)) =
              ((decide (lookupKey used x.1 ≠ some DependencyStatus.ready)) &&
                decide (x.1 ∉ order)) := by
            intro x
            have h1 : (lookupKey used₁ x.1 ≠ some DependencyStatus.ready) ↔
                ((lookupKey used x.1 ≠ some DependencyStatus.ready) ∧ x.1 ∉ order) := by
              simp only [ne_eq, hready_iff x.1, not_or]
            have h2 : (decide (lookupKey used₁ x.1 ≠ some DependencyStatus.ready)) =
                decide ((lookupKey used x.1 ≠ some DependencyStatus.ready) ∧
                  x.1 ∉ order) :=
              decide_eq_decide.mpr h1
            rw [h2]
            simp
          have hpot₂' : buildPotential b.plugins used₁ < fuel := by
            have heq : buildPotential b.plugins used₁ =
                potSum b.plugins
                  (fun k => decide (lookupKey used k ≠ some DependencyStatus.ready) &&
                    decide (k ∉ order)) := by
              unfold buildPotential potSum
              rw [List.filter_congr (fun x _ => hpred x)]
            have hlen : 0 < order.length := List.length_pos.mpr ho
            have hbp : buildPotential b.plugins used = potSum b.plugins
                (fun k => decide (lookupKey used k ≠ some DependencyStatus.ready)) := rfl
            have hpot₂x : potSum b.plugins
                (fun k => decide (lookupKey used k ≠ some DependencyStatus.ready) &&
                  decide (k ∉ order)) + order.length ≤
                potSum b.plugins
                  (fun k => decide (lookupKey used k ≠ some DependencyStatus.ready)) :=
              hpot₂
            rw [heq]
            rw [hbp] at hpot
            omega
          have hagree₂ : ∀ k p, lookupKey b.plugins k = some p →
              lookupKey graph₁ k = some p.deps ∨ k ∈ deferred := by
            intro k p hk
            by_cases hkP : k ∈ b.pending_plugins
            · obtain ⟨p', hp', hg'⟩ := hg2 k hkP
              rw [hk] at hp'
              injection hp' with hp'
              subst hp'
              exact Or.inl hg'
            · rcases hagree k p hk with hgk | hpend
              · rw [hg1 k hkP]
                exact Or.inl hgk
              · exact absurd hpend hkP
          exact ihf { b with pending_plugins := deferred } graph₁ used₁ (log ++ order)
            hinv₂ hstatic hpot₂' hagree₂

/-- C6: a declared dependency identity that no one ever registers causes
`MissingDependency`: for every static, acyclic registration sequence in
which some registered plugin declares a dependency on an unregistered
identity, `build()` fails with `MissingDependency`; structurally, whenever
a round over a nonempty pending queue resolves zero identities, the loop
immediately returns `MissingDependency`. -/
theorem claim_C6_theorem :
    (∀ b, wfStart b → staticBuilder b →
      ¬(∃ z, Relation.TransGen (edgeOfBuilder b) z z) →
      (∃ k p d, lookupKey b.plugins k = some p ∧ d ∈ p.deps ∧
        lookupKey b.plugins d = none) →
      ∃ log graph, AppBuilder.build b = .err .missingDependency log graph) ∧
    (∀ fuel b graph graph₁ used used₁ deferred log,
      b.pending_plugins ≠ [] →
      insertGraph b.pending_plugins b.plugins graph = some graph₁ →
      topoRound b.pending_plugins graph₁ [] used [] = .ok [] used₁ deferred →
      buildLoop (fuel + 1) b graph used log = .err .missingDependency log graph₁) := by
  refine ⟨?_, ?_⟩
  · intro b hwf hstatic hacyc hex
    obtain ⟨k, p, d, hk, hd, hdnone⟩ := hex
    have hspec := buildLoop_static (buildFuel b) b [] [] []
      (wfStart_buildInv b hwf) hstatic (buildPotential_lt_buildFuel b)
      (fun k' p' hk' => Or.inr (by
        rw [hwf.1]
        exact (mem_keys_iff_lookup _ k').mpr (by simp [hk'])))
    match hres : buildLoop (buildFuel b) b [] [] [] with
    | .outOfFuel =>
      rw [hres] at hspec
      exact hspec.elim
    | .panicked =>
      rw [hres] at hspec
      exact hspec.elim
    | .ok app b' log graph =>
      rw [hres] at hspec
      have := hspec k p hk d hd
      rw [hdnone] at this
      simp at this
    | .err e log graph =>
      rw [hres] at hspec
      match e with
      | .circularDependency => exact absurd (hspec.1 rfl) hacyc
      | .pluginError e' => exact absurd rfl (hspec.2 e')
      | .missingDependency => exact ⟨log, graph, hres⟩
  · intro fuel b graph graph₁ used used₁ deferred log hp hins htr
    simp [buildLoop, hp, hins, htr]

/-- C6 witness: plugin 1 declares a dependency on the never-registered
identity 9, so `build()` fails with `MissingDependency` (first clause of
`claim_C6_theorem`), and the concrete stuck round over pending queue [1]
returns `MissingDependency` directly (second clause). -/
theorem claim_C6_witness :
    (∃ log graph,
      AppBuilder.build ⟨[], [(1, ⟨[9], .done⟩)], [1]⟩ =
        .err .missingDependency log graph) ∧
    buildLoop 1 ⟨[], [(1, ⟨[9], .done⟩)], [1]⟩ [] [] [] =
      .err .missingDependency [] [(1, [9])] := by
  have hacyc : ¬(∃ z, Relation.TransGen
      (edgeOfBuilder ⟨[], [(1, ⟨[9], .done⟩)], [1]⟩) z z) := by
    rintro ⟨z, hz⟩
    obtain ⟨w, hzw, hrest⟩ := Relation.TransGen.head'_iff.mp hz
    obtain ⟨p, hp, hw⟩ := hzw
    have hz1 : z = 1 := by
      have hmem : z ∈ ([(1, PluginDef.mk [9] .done)].map Prod.fst) :=
        (mem_keys_iff_lookup _ z).mpr (by simp [hp])
      simpa using hmem
    subst hz1
    simp only [lookupKey, if_pos rfl] at hp
    injection hp with hp
    subst hp
    have hw9 : w = 9 := by simpa using hw
    subst hw9
    rcases Relation.ReflTransGen.cases_head hrest with he | ⟨c, hc, _⟩
    · exact absurd he (by decide)
    · obtain ⟨q, hq, _⟩ := hc
      simp [lookupKey] at hq
  exact ⟨(claim_C6_theorem).1 ⟨[], [(1, ⟨[9], .done⟩)], [1]⟩
      (by refine ⟨?_, ?_, ?_⟩ <;> decide)
      (by simp only [staticBuilder]; decide)
      hacyc
      ⟨1, ⟨[9], .done⟩, 9, rfl, by decide, rfl⟩,
    (claim_C6_theorem).2 0 ⟨[], [(1, ⟨[9], .done⟩)], [1]⟩ [] [(1, [9])] [] [] [1] []
      (by decide) rfl rfl⟩

end Diode
